import Mathlib

/-!
Verification of the incremental hierarchy aggregation engine
(src/utils/hierarchyCalculations.ts and src/utils/sampleData.ts).

The embedding is shallow: the TypeScript data model and functions are
translated one-for-one into Lean definitions.  JavaScript numbers are
modelled as exact rationals, the global LRU calculation cache is passed
explicitly through every operation (returned alongside the result), and
JavaScript reference identity of nodes is tracked by an explicit Boolean
flag mirroring the source's reference-inequality tests
(child !== node.children[index]).  The optional children field keeps the
distinction between an absent children array and an empty one.
-/

/-- The three node statuses of the engine (normal | skip | invert). -/
inductive Status where
  | normal
  | skip
  | invert
deriving DecidableEq, Repr

/-- The HierarchyNode record from src/types/hierarchy.ts: id, name, optional
raw value, optional ordered children, status, stored aggregate
(calculatedValue) and depth.  The optional parent back-reference declared in
the interface is never read or written by the engine and is omitted. -/
inductive HierarchyNode where
  | mk (id : String) (name : String) (value : Option ℚ)
       (children : Option (List HierarchyNode)) (status : Status)
       (calculatedValue : ℚ) (depth : ℕ)

def HierarchyNode.id : HierarchyNode → String
  | .mk i _ _ _ _ _ _ => i

def HierarchyNode.name : HierarchyNode → String
  | .mk _ n _ _ _ _ _ => n

def HierarchyNode.value : HierarchyNode → Option ℚ
  | .mk _ _ v _ _ _ _ => v

def HierarchyNode.children : HierarchyNode → Option (List HierarchyNode)
  | .mk _ _ _ cs _ _ _ => cs

def HierarchyNode.status : HierarchyNode → Status
  | .mk _ _ _ _ s _ _ => s

def HierarchyNode.calculatedValue : HierarchyNode → ℚ
  | .mk _ _ _ _ _ cv _ => cv

def HierarchyNode.depth : HierarchyNode → ℕ
  | .mk _ _ _ _ _ _ d => d

/-- The children as a plain list (empty when the field is absent). -/
def HierarchyNode.childrenList (n : HierarchyNode) : List HierarchyNode :=
  n.children.getD []

/-- The object spread with a replaced status: \x7b ...node, status: newStatus \x7d. -/
def HierarchyNode.withStatus : HierarchyNode → Status → HierarchyNode
  | .mk i nm v cs _ cv d, s => .mk i nm v cs s cv d

/-- The object spread with a replaced children array. -/
def HierarchyNode.withChildren : HierarchyNode → Option (List HierarchyNode) → HierarchyNode
  | .mk i nm v _ s cv d, cs => .mk i nm v cs s cv d

/-- Assignment updatedNode.calculatedValue = v on a fresh copy. -/
def HierarchyNode.withCalculatedValue : HierarchyNode → ℚ → HierarchyNode
  | .mk i nm v cs s _ d, cv => .mk i nm v cs s cv d

mutual
def HierarchyNode.deq : (a b : HierarchyNode) → Decidable (a = b)
  | .mk i1 n1 v1 c1 s1 cv1 d1, .mk i2 n2 v2 c2 s2 cv2 d2 =>
    match decEq i1 i2, decEq n1 n2, decEq v1 v2, HierarchyNode.deqOpt c1 c2,
          decEq s1 s2, decEq cv1 cv2, decEq d1 d2 with
    | isTrue h1, isTrue h2, isTrue h3, isTrue h4, isTrue h5, isTrue h6, isTrue h7 =>
        isTrue (by subst h1 h2 h3 h4 h5 h6 h7; rfl)
    | isFalse h1, _, _, _, _, _, _ => isFalse (by intro h; cases h; exact h1 rfl)
    | _, isFalse h2, _, _, _, _, _ => isFalse (by intro h; cases h; exact h2 rfl)
    | _, _, isFalse h3, _, _, _, _ => isFalse (by intro h; cases h; exact h3 rfl)
    | _, _, _, isFalse h4, _, _, _ => isFalse (by intro h; cases h; exact h4 rfl)
    | _, _, _, _, isFalse h5, _, _ => isFalse (by intro h; cases h; exact h5 rfl)
    | _, _, _, _, _, isFalse h6, _ => isFalse (by intro h; cases h; exact h6 rfl)
    | _, _, _, _, _, _, isFalse h7 => isFalse (by intro h; cases h; exact h7 rfl)
def HierarchyNode.deqOpt : (a b : Option (List HierarchyNode)) → Decidable (a = b)
  | .none, .none => isTrue rfl
  | .none, .some _ => isFalse (by intro h; cases h)
  | .some _, .none => isFalse (by intro h; cases h)
  | .some l1, .some l2 =>
    match HierarchyNode.deqList l1 l2 with
    | isTrue h => isTrue (by subst h; rfl)
    | isFalse h => isFalse (by intro hh; cases hh; exact h rfl)
def HierarchyNode.deqList : (a b : List HierarchyNode) → Decidable (a = b)
  | [], [] => isTrue rfl
  | [], _ :: _ => isFalse (by intro h; cases h)
  | _ :: _, [] => isFalse (by intro h; cases h)
  | h1 :: t1, h2 :: t2 =>
    match HierarchyNode.deq h1 h2, HierarchyNode.deqList t1 t2 with
    | isTrue e1, isTrue e2 => isTrue (by subst e1 e2; rfl)
    | isFalse e1, _ => isFalse (by intro h; cases h; exact e1 rfl)
    | _, isFalse e2 => isFalse (by intro h; cases h; exact e2 rfl)
end

instance : DecidableEq HierarchyNode := HierarchyNode.deq

/-- LRUCache from hierarchyCalculations.ts, modelled on top of a JavaScript
Map: an association list in insertion order (head oldest, last newest)
together with the configured maxSize bound. -/
structure LRUCache (K V : Type) where
  entries : List (K × V)
  maxSize : ℕ
deriving DecidableEq

/-- LRUCache.get: a hit deletes the entry and re-inserts it at the end
(most recently used); a miss leaves the map untouched.  The updated cache is
returned alongside the looked-up value. -/
def LRUCache.get [DecidableEq K] (c : LRUCache K V) (k : K) : Option V × LRUCache K V :=
  match List.lookup k c.entries with
  | some v => (some v, ⟨(c.entries.eraseP (fun p => p.1 == k)) ++ [(k, v)], c.maxSize⟩)
  | none => (none, c)

/-- LRUCache.set: an existing key is deleted first; otherwise, at capacity
(size ≥ maxSize) the first Map entry — the least recently used — is deleted
(a no-op on an empty map, where firstKey is undefined); finally the pair is
appended as most recently used. -/
def LRUCache.set [DecidableEq K] (c : LRUCache K V) (k : K) (v : V) : LRUCache K V :=
  if c.entries.any (fun p => p.1 == k) then
    ⟨c.entries.eraseP (fun p => p.1 == k) ++ [(k, v)], c.maxSize⟩
  else if c.maxSize ≤ c.entries.length then
    ⟨c.entries.tail ++ [(k, v)], c.maxSize⟩
  else
    ⟨c.entries ++ [(k, v)], c.maxSize⟩

/-- LRUCache.clear: drops all entries, keeping the configured bound. -/
def LRUCache.clear (c : LRUCache K V) : LRUCache K V :=
  ⟨[], c.maxSize⟩

/-- The leaf test used throughout the source:
!node.children || node.children.length === 0. -/
def isLeafNode (node : HierarchyNode) : Bool :=
  match node.children with
  | none => true
  | some cs => cs.isEmpty

/-- The cache key of generateCacheKey, kept as structured data instead of
the source's string concatenation: a leaf key holds the id, status and raw
value (node.value || 0); a parent key holds the id, status and the list of
(child id, child calculatedValue) pairs, in order. -/
inductive CacheKey where
  | leaf (id : String) (status : Status) (value : ℚ)
  | parent (id : String) (status : Status) (childrenKey : List (String × ℚ))
deriving DecidableEq

/-- generateCacheKey from hierarchyCalculations.ts. -/
def generateCacheKey (node : HierarchyNode) : CacheKey :=
  match node.children with
  | none => .leaf node.id node.status (node.value.getD 0)
  | some cs =>
    if cs.isEmpty then .leaf node.id node.status (node.value.getD 0)
    else .parent node.id node.status (cs.map (fun child => (child.id, child.calculatedValue)))

/-- The calculation cache type: string keys modelled by CacheKey, number
values by rationals. -/
def Cache : Type := LRUCache CacheKey ℚ

instance : DecidableEq Cache := inferInstanceAs (DecidableEq (LRUCache CacheKey ℚ))

/-- The module-level calculationCache as freshly initialised:
new LRUCache(50000). -/
def calculationCacheInit : Cache := ⟨[], 50000⟩

/-- An always-empty cache of capacity 0, used to state cache transparency
(the cache disabled). -/
def disabledCache : Cache := ⟨[], 0⟩

/-- calculateLeafValue: the raw value (node.value || 0) signed by the node's
own status. -/
def calculateLeafValue (node : HierarchyNode) : ℚ :=
  match node.status with
  | .skip => 0
  | .invert => -(node.value.getD 0)
  | .normal => node.value.getD 0

/-- calculateParentValue: the sum of the children's calculatedValues
(node.children!.reduce) signed by the node's own status. -/
def calculateParentValue (node : HierarchyNode) : ℚ :=
  let childrenSum := node.childrenList.foldl (fun sum child => sum + child.calculatedValue) 0
  match node.status with
  | .skip => 0
  | .invert => -childrenSum
  | .normal => childrenSum

/-- calculateNodeValue: consults the cache unless forceRecalculate, then
resolves the node locally (leaf or parent calculation) and stores the result
under the node's cache key.  Returns the value together with the evolved
cache. -/
def calculateNodeValue (cache : Cache) (node : HierarchyNode) (forceRecalculate : Bool) :
    ℚ × Cache :=
  let cacheKey := generateCacheKey node
  match (if forceRecalculate then (none, cache) else LRUCache.get cache cacheKey) with
  | (some cached, cache') => (cached, cache')
  | (none, cache') =>
    let result := if isLeafNode node then calculateLeafValue node else calculateParentValue node
    (result, LRUCache.set cache' cacheKey result)

/-- The Node Value Resolver of the spec, i.e. the result component of a
forced calculateNodeValue call: leaf calculation on leaves (absent or empty
children), parent calculation otherwise. -/
def resolveNodeValue (node : HierarchyNode) : ℚ :=
  if isLeafNode node then calculateLeafValue node else calculateParentValue node

mutual
/-- updateNodeRecursive: at the target id, copy the node with the new status
and a freshly forced calculatedValue; otherwise map over the children,
rebuild (with a forced recalculation) only when some child object changed,
and return the node itself untouched otherwise.  The Boolean mirrors
JavaScript reference inequality with the input node (true iff a new object
was returned). -/
def updateNodeRecursive (cache : Cache) (node : HierarchyNode) (nodeId : String)
    (newStatus : Status) : HierarchyNode × Bool × Cache :=
  if node.id = nodeId then
    let updatedNode := node.withStatus newStatus
    let r := calculateNodeValue cache updatedNode true
    (updatedNode.withCalculatedValue r.1, true, r.2)
  else
    match node with
    | .mk i nm v cs0 s cv d =>
      match cs0 with
      | some cs =>
        let r := updateChildrenRecursive cache cs nodeId newStatus
        if r.2.1 then
          let updatedNode := HierarchyNode.mk i nm v (some r.1) s cv d
          let r2 := calculateNodeValue r.2.2 updatedNode true
          (updatedNode.withCalculatedValue r2.1, true, r2.2)
        else (node, false, r.2.2)
      | none => (node, false, cache)
/-- node.children.map over updateNodeRecursive, threading the cache from
left to right; the Boolean is the hasChanges test (some child is a new
object). -/
def updateChildrenRecursive (cache : Cache) (cs : List HierarchyNode) (nodeId : String)
    (newStatus : Status) : List HierarchyNode × Bool × Cache :=
  match cs with
  | [] => ([], false, cache)
  | c :: rest =>
    let r := updateNodeRecursive cache c nodeId newStatus
    let rr := updateChildrenRecursive r.2.2 rest nodeId newStatus
    (r.1 :: rr.1, (r.2.1 || rr.2.1), rr.2.2)
end

/-- updateNodeStatus: the public setStatus operation, delegating to
updateNodeRecursive; the reference-change Boolean is dropped. -/
def updateNodeStatus (cache : Cache) (rootNode : HierarchyNode) (nodeId : String)
    (newStatus : Status) : HierarchyNode × Cache :=
  let r := updateNodeRecursive cache rootNode nodeId newStatus
  (r.1, r.2.2)

mutual
/-- recalculateNodeRecursive: post-order rebuild of every node with a
freshly forced calculatedValue. -/
def recalculateNodeRecursive (cache : Cache) (node : HierarchyNode) : HierarchyNode × Cache :=
  match node with
  | .mk i nm v cs0 s cv d =>
    match cs0 with
    | some cs =>
      let r := recalculateChildren cache cs
      let updatedNode := HierarchyNode.mk i nm v (some r.1) s cv d
      let r2 := calculateNodeValue r.2 updatedNode true
      (updatedNode.withCalculatedValue r2.1, r2.2)
    | none =>
      let r := calculateNodeValue cache node true
      (node.withCalculatedValue r.1, r.2)
/-- node.children.map over recalculateNodeRecursive, threading the cache. -/
def recalculateChildren (cache : Cache) (cs : List HierarchyNode) : List HierarchyNode × Cache :=
  match cs with
  | [] => ([], cache)
  | c :: rest =>
    let r := recalculateNodeRecursive cache c
    let rr := recalculateChildren r.2 rest
    (r.1 :: rr.1, rr.2)
end

/-- recalculateTree: clears the calculation cache, then rebuilds the whole
tree bottom-up. -/
def recalculateTree (cache : Cache) (node : HierarchyNode) : HierarchyNode × Cache :=
  recalculateNodeRecursive cache.clear node

mutual
/-- findNodeById: depth-first search, node before children, children left to
right; null modelled as none. -/
def findNodeById (root : HierarchyNode) (id : String) : Option HierarchyNode :=
  if root.id = id then some root
  else
    match root with
    | .mk _ _ _ cs0 _ _ _ =>
      match cs0 with
      | some cs => findNodeByIdList cs id
      | none => none
def findNodeByIdList : List HierarchyNode → String → Option HierarchyNode
  | [], _ => none
  | c :: rest, id =>
    match findNodeById c id with
    | some found => some found
    | none => findNodeByIdList rest id
end

mutual
/-- applyToSubtree: sets the status of the node and, recursively, of every
descendant, recomputing calculatedValue bottom-up with forced
recalculation. -/
def applyToSubtree (cache : Cache) (node : HierarchyNode) (operation : Status) :
    HierarchyNode × Cache :=
  match node with
  | .mk i nm v cs0 _s cv d =>
    let updatedNode := HierarchyNode.mk i nm v cs0 operation cv d
    match cs0 with
    | some cs =>
      let r := applyToSubtreeChildren cache cs operation
      let updatedNode2 := HierarchyNode.mk i nm v (some r.1) operation cv d
      let r2 := calculateNodeValue r.2 updatedNode2 true
      (updatedNode2.withCalculatedValue r2.1, r2.2)
    | none =>
      let r2 := calculateNodeValue cache updatedNode true
      (updatedNode.withCalculatedValue r2.1, r2.2)
/-- node.children.map over applyToSubtree, threading the cache. -/
def applyToSubtreeChildren (cache : Cache) (cs : List HierarchyNode) (operation : Status) :
    List HierarchyNode × Cache :=
  match cs with
  | [] => ([], cache)
  | c :: rest =>
    let r := applyToSubtree cache c operation
    let rr := applyToSubtreeChildren r.2 rest operation
    (r.1 :: rr.1, rr.2)
end

mutual
/-- applyBulkOperationRecursive: like updateNodeRecursive, except that at
the target the whole subtree is rewritten by applyToSubtree. -/
def applyBulkOperationRecursive (cache : Cache) (node : HierarchyNode) (nodeId : String)
    (operation : Status) : HierarchyNode × Bool × Cache :=
  if node.id = nodeId then
    let r := applyToSubtree cache node operation
    (r.1, true, r.2)
  else
    match node with
    | .mk i nm v cs0 s cv d =>
      match cs0 with
      | some cs =>
        let r := applyBulkChildrenRecursive cache cs nodeId operation
        if r.2.1 then
          let updatedNode := HierarchyNode.mk i nm v (some r.1) s cv d
          let r2 := calculateNodeValue r.2.2 updatedNode true
          (updatedNode.withCalculatedValue r2.1, true, r2.2)
        else (node, false, r.2.2)
      | none => (node, false, cache)
/-- node.children.map over applyBulkOperationRecursive, threading the
cache; the Boolean is the hasChanges test. -/
def applyBulkChildrenRecursive (cache : Cache) (cs : List HierarchyNode) (nodeId : String)
    (operation : Status) : List HierarchyNode × Bool × Cache :=
  match cs with
  | [] => ([], false, cache)
  | c :: rest =>
    let r := applyBulkOperationRecursive cache c nodeId operation
    let rr := applyBulkChildrenRecursive r.2.2 rest nodeId operation
    (r.1 :: rr.1, (r.2.1 || rr.2.1), rr.2.2)
end

/-- applyBulkOperation: the public bulk operation, delegating to
applyBulkOperationRecursive; the reference-change Boolean is dropped. -/
def applyBulkOperation (cache : Cache) (rootNode : HierarchyNode) (nodeId : String)
    (operation : Status) : HierarchyNode × Cache :=
  let r := applyBulkOperationRecursive cache rootNode nodeId operation
  (r.1, r.2.2)

/-- The sampleHierarchy literal of src/utils/sampleData.ts: quarters Q3 and
Q4 with three month leaves each under the Total Revenue root. -/
def sampleHierarchy : HierarchyNode :=
  .mk "root" "Total Revenue" none
    (some
      [ .mk "q3" "Q3" none
          (some
            [ .mk "jul" "Jul" (some 113.4) none .normal 113.4 2,
              .mk "aug" "Aug" (some 46.4) none .normal 46.4 2,
              .mk "sep" "Sep" (some 42.7) none .normal 42.7 2 ])
          .normal 0 1,
        .mk "q4" "Q4" none
          (some
            [ .mk "oct" "Oct" (some 115.5) none .normal 115.5 2,
              .mk "nov" "Nov" (some 24.8) none .normal 24.8 2,
              .mk "dec" "Dec" (some 97.2) none .normal 97.2 2 ])
          .normal 0 1 ])
    .normal 0 0

mutual
/-- Every node of a tree, the node itself first, then the nodes of its
children in order. -/
def allNodes : HierarchyNode → List HierarchyNode
  | .mk i nm v cs0 s cv d =>
    HierarchyNode.mk i nm v cs0 s cv d ::
      (match cs0 with
       | some cs => allNodesList cs
       | none => [])
def allNodesList : List HierarchyNode → List HierarchyNode
  | [] => []
  | c :: rest => allNodes c ++ allNodesList rest
end

/-- All node ids of a tree, in depth-first order. -/
def allIds (t : HierarchyNode) : List String :=
  (allNodes t).map HierarchyNode.id

mutual
/-- The depth-first (node, then children left to right) path of child
indices from the root to the first node carrying the given id, or none when
the id is absent; this is the traversal order of updateNodeRecursive,
applyBulkOperationRecursive and findNodeById. -/
def pathTo (t : HierarchyNode) (id : String) : Option (List ℕ) :=
  if t.id = id then some []
  else
    match t with
    | .mk _ _ _ cs0 _ _ _ =>
      match cs0 with
      | some cs => pathToList cs id 0
      | none => none
def pathToList : List HierarchyNode → String → ℕ → Option (List ℕ)
  | [], _, _ => none
  | c :: rest, id, i =>
    match pathTo c id with
    | some p => some (i :: p)
    | none => pathToList rest id (i + 1)
end

/-- The subtree of a tree at a path of child indices, when the path is
valid. -/
def subtreeAt : List ℕ → HierarchyNode → Option HierarchyNode
  | [], t => some t
  | i :: p, t => (t.childrenList[i]?).bind (subtreeAt p)

/-- The central per-node aggregation invariant, exactly as the spec states
it: a leaf (absent or empty children) stores its signed raw value, an
internal node stores the signed sum of its children's stored aggregates. -/
def nodeLocalInvariant (n : HierarchyNode) : Bool :=
  if isLeafNode n then n.calculatedValue == calculateLeafValue n
  else n.calculatedValue == calculateParentValue n

/-- A tree is resolved when every node of it satisfies the aggregation
invariant. -/
def resolvedTree (t : HierarchyNode) : Bool :=
  (allNodes t).all nodeLocalInvariant

mutual
/-- The cache-free mirror of updateNodeRecursive: the result tree and the
reference-change flag, which by cache transparency coincide with the
components of the threaded function. -/
def updateFun (node : HierarchyNode) (nodeId : String) (newStatus : Status) :
    HierarchyNode × Bool :=
  if node.id = nodeId then
    let updatedNode := node.withStatus newStatus
    (updatedNode.withCalculatedValue (resolveNodeValue updatedNode), true)
  else
    match node with
    | .mk i nm v cs0 s cv d =>
      match cs0 with
      | some cs =>
        let r := updateChildrenFun cs nodeId newStatus
        if r.2 then
          let updatedNode := HierarchyNode.mk i nm v (some r.1) s cv d
          (updatedNode.withCalculatedValue (resolveNodeValue updatedNode), true)
        else (node, false)
      | none => (node, false)
/-- The cache-free mirror of updateChildrenRecursive. -/
def updateChildrenFun (cs : List HierarchyNode) (nodeId : String) (newStatus : Status) :
    List HierarchyNode × Bool :=
  match cs with
  | [] => ([], false)
  | c :: rest =>
    let r := updateFun c nodeId newStatus
    let rr := updateChildrenFun rest nodeId newStatus
    (r.1 :: rr.1, (r.2 || rr.2))
end

mutual
/-- The cache-free mirror of recalculateNodeRecursive. -/
def recalcFun : HierarchyNode → HierarchyNode
  | .mk i nm v cs0 s cv d =>
    match cs0 with
    | some cs =>
      let updatedNode := HierarchyNode.mk i nm v (some (recalcChildrenFun cs)) s cv d
      updatedNode.withCalculatedValue (resolveNodeValue updatedNode)
    | none =>
      let node := HierarchyNode.mk i nm v cs0 s cv d
      node.withCalculatedValue (resolveNodeValue node)
/-- The cache-free mirror of recalculateChildren. -/
def recalcChildrenFun : List HierarchyNode → List HierarchyNode
  | [] => []
  | c :: rest => recalcFun c :: recalcChildrenFun rest
end

mutual
/-- The cache-free mirror of applyToSubtree. -/
def subtreeFun : HierarchyNode → Status → HierarchyNode
  | .mk i nm v cs0 _s cv d, operation =>
    match cs0 with
    | some cs =>
      let updatedNode2 := HierarchyNode.mk i nm v (some (subtreeChildrenFun cs operation)) operation cv d
      updatedNode2.withCalculatedValue (resolveNodeValue updatedNode2)
    | none =>
      let updatedNode := HierarchyNode.mk i nm v cs0 operation cv d
      updatedNode.withCalculatedValue (resolveNodeValue updatedNode)
/-- The cache-free mirror of applyToSubtreeChildren. -/
def subtreeChildrenFun : List HierarchyNode → Status → List HierarchyNode
  | [], _ => []
  | c :: rest, operation => subtreeFun c operation :: subtreeChildrenFun rest operation
end

mutual
/-- The cache-free mirror of applyBulkOperationRecursive. -/
def bulkFun (node : HierarchyNode) (nodeId : String) (operation : Status) :
    HierarchyNode × Bool :=
  if node.id = nodeId then (subtreeFun node operation, true)
  else
    match node with
    | .mk i nm v cs0 s cv d =>
      match cs0 with
      | some cs =>
        let r := bulkChildrenFun cs nodeId operation
        if r.2 then
          let updatedNode := HierarchyNode.mk i nm v (some r.1) s cv d
          (updatedNode.withCalculatedValue (resolveNodeValue updatedNode), true)
        else (node, false)
      | none => (node, false)
/-- The cache-free mirror of applyBulkChildrenRecursive. -/
def bulkChildrenFun (cs : List HierarchyNode) (nodeId : String) (operation : Status) :
    List HierarchyNode × Bool :=
  match cs with
  | [] => ([], false)
  | c :: rest =>
    let r := bulkFun c nodeId operation
    let rr := bulkChildrenFun rest nodeId operation
    (r.1 :: rr.1, (r.2 || rr.2))
end

mutual
/-- Replaces every calculatedValue of a tree by 0, keeping all other fields:
two trees are equal under clearCalculated exactly when they have the same
shape and agree on id, name, value, status and depth at every node. -/
def clearCalculated : HierarchyNode → HierarchyNode
  | .mk i nm v cs0 s _ d =>
    match cs0 with
    | some cs => .mk i nm v (some (clearCalculatedList cs)) s 0 d
    | none => .mk i nm v cs0 s 0 d
def clearCalculatedList : List HierarchyNode → List HierarchyNode
  | [] => []
  | c :: rest => clearCalculated c :: clearCalculatedList rest
end

/-- One client-visible cache operation, for stating the LRU contract. -/
inductive CacheOp (K V : Type) where
  | get (k : K)
  | set (k : K) (v : V)

/-- Runs a sequence of get and set operations against a cache, left to
right. -/
def runCacheOps [DecidableEq K] (c : LRUCache K V) : List (CacheOp K V) → LRUCache K V
  | [] => c
  | .get k :: rest => runCacheOps (LRUCache.get c k).2 rest
  | .set k v :: rest => runCacheOps (LRUCache.set c k v) rest

/-- The state after recalculate on the sample hierarchy (tree and cache). -/
def c8state0 : HierarchyNode × Cache := recalculateTree calculationCacheInit sampleHierarchy

/-- The state after setStatus(tree, aug, skip) on c8state0. -/
def c8state1 : HierarchyNode × Cache := updateNodeStatus c8state0.2 c8state0.1 "aug" .skip

/-- The state after setStatus(tree, aug, invert) on c8state1. -/
def c8state2 : HierarchyNode × Cache := updateNodeStatus c8state1.2 c8state1.1 "aug" .invert

/-- A resolved single-leaf tree whose status is invert: its calculatedValue
is the negated raw value. -/
def invertedLeaf : HierarchyNode := .mk "a" "A" (some 5) none .invert (-5) 0

/-- An empty-children node that carries a raw value. -/
def emptyChildrenNode : HierarchyNode := .mk "e" "E" (some 5) (some []) .normal 0 0

/-- A two-leaf sample used as a concrete witness input. -/
def witnessTree : HierarchyNode :=
  .mk "w" "W" none
    (some [ .mk "x" "X" (some 3) none .normal 3 1,
            .mk "y" "Y" (some 4) none .normal 4 1 ])
    .normal 7 0

/-- Binary digit count, with an explicit structural fuel so that it is
kernel-computable; correct for every number of fewer than 4096 binary
digits, which covers every numerator and denominator arising from binary64
values and their sums. -/
def bitLenAux : ℕ → ℕ → ℕ
  | 0, _ => 0
  | fuel + 1, n => if n = 0 then 0 else bitLenAux fuel (n / 2) + 1

/-- Binary digit count of a natural number. -/
def bitLen (n : ℕ) : ℕ := bitLenAux 4096 n

/-- IEEE-754 binary64 rounding (round to nearest, ties to even) of an exact
rational: the value a JavaScript number holds after an arithmetic operation
whose exact result is the argument.  The engine embedding above idealizes
the program numbers as exact rationals, which is faithful whenever a claim
does not rest on particular rounded constants; this function supplies the
binary64 semantics for the one claim that does.  With the magnitude
|q| = n / d, the exponent e is fixed so that 2 ^ e ≤ |q| < 2 ^ (e + 1),
the scaled significand |q| * 2 ^ (52 - e) is split by integer division
into quotient and remainder, the quotient is rounded to nearest with ties
to even, and the result is rebuilt as a rational.  Exponent overflow and
subnormals are not modelled: every value of the sample computation lies
well inside the normal range, where this is the exact binary64 rounding. -/
def float64Round (q : ℚ) : ℚ :=
  if q = 0 then 0
  else
    let n : ℕ := q.num.natAbs
    let d : ℕ := q.den
    let e0 : ℤ := (bitLen n : ℤ) - (bitLen d : ℤ)
    let belowE0 : Bool :=
      if 0 ≤ e0 then n < d * 2 ^ e0.toNat else n * 2 ^ (-e0).toNat < d
    let e : ℤ := if belowE0 then e0 - 1 else e0
    let s : ℤ := 52 - e
    let N : ℕ := if 0 ≤ s then n * 2 ^ s.toNat else n
    let D : ℕ := if 0 ≤ s then d else d * 2 ^ (-s).toNat
    let n0 : ℕ := N / D
    let r : ℕ := N % D
    let n1 : ℕ :=
      if 2 * r < D then n0
      else if D < 2 * r then n0 + 1
      else if n0 % 2 = 0 then n0 else n0 + 1
    let mag : ℚ :=
      if 0 ≤ e - 52 then Rat.divInt (n1 * 2 ^ (e - 52).toNat : ℕ) 1
      else Rat.divInt (n1 : ℕ) ((2 : ℤ) ^ (52 - e).toNat)
    if q < 0 then -mag else mag

/-- One JavaScript addition: the exact sum, rounded to binary64. -/
def float64Add (x y : ℚ) : ℚ := float64Round (x + y)

/-- The binary64 value denoted by a decimal literal of the source. -/
def float64Lit (q : ℚ) : ℚ := float64Round q

/-- The children.reduce((sum, child) => sum + child.calculatedValue, 0)
fold of calculateParentValue as the program executes it, in binary64
arithmetic. -/
def float64ChildrenSum (cvs : List ℚ) : ℚ := cvs.foldl float64Add 0

/-- Structural induction principle for hierarchy nodes: to prove a property
of every node it suffices to prove it for a node assuming it for all
entries of its (possibly absent) children list. -/
theorem HierarchyNode.inductionOn {P : HierarchyNode → Prop}
    (step : ∀ i nm v cs s cv d,
      (∀ c ∈ (cs : Option (List HierarchyNode)).getD [], P c) →
      P (.mk i nm v cs s cv d)) :
    ∀ t, P t
  | .mk i nm v cs s cv d => by
    apply step
    intro c hc
    exact HierarchyNode.inductionOn step c
termination_by t => sizeOf t
decreasing_by
  have h1 := List.sizeOf_lt_of_mem hc
  cases cs with
  | none => simp at hc
  | some l =>
      simp only [Option.getD_some] at hc h1
      simp only [HierarchyNode.mk.sizeOf_spec, Option.some.sizeOf_spec]
      omega

theorem calculateNodeValue_force (cache : Cache) (n : HierarchyNode) :
    calculateNodeValue cache n true =
      (resolveNodeValue n, LRUCache.set cache (generateCacheKey n) (resolveNodeValue n)) := rfl

theorem updateChildren_bridge (nodeId : String) (st : Status) (cs : List HierarchyNode)
    (H : ∀ c ∈ cs, ∀ cache : Cache,
      (updateNodeRecursive cache c nodeId st).1 = (updateFun c nodeId st).1 ∧
      (updateNodeRecursive cache c nodeId st).2.1 = (updateFun c nodeId st).2) :
    ∀ cache : Cache,
      (updateChildrenRecursive cache cs nodeId st).1 = (updateChildrenFun cs nodeId st).1 ∧
      (updateChildrenRecursive cache cs nodeId st).2.1 = (updateChildrenFun cs nodeId st).2 := by
  induction cs with
  | nil => intro cache; exact ⟨rfl, rfl⟩
  | cons c rest ih =>
    intro cache
    have hc := H c (by simp) cache
    have hrest := ih (fun x hx cache2 => H x (by simp [hx]) cache2)
      (updateNodeRecursive cache c nodeId st).2.2
    simp only [updateChildrenRecursive, updateChildrenFun]
    constructor
    · rw [hc.1, hrest.1]
    · rw [hc.2, hrest.2]

theorem update_bridge (nodeId : String) (st : Status) :
    ∀ (n : HierarchyNode) (cache : Cache),
      (updateNodeRecursive cache n nodeId st).1 = (updateFun n nodeId st).1 ∧
      (updateNodeRecursive cache n nodeId st).2.1 = (updateFun n nodeId st).2 := by
  intro n
  induction n using HierarchyNode.inductionOn with
  | step i nm v cs0 s cv d ih =>
    intro cache
    cases cs0 with
    | none =>
      by_cases h : (HierarchyNode.mk i nm v none s cv d).id = nodeId
      · rw [updateNodeRecursive.eq_2, updateFun.eq_2, if_pos h, if_pos h]
        exact ⟨rfl, rfl⟩
      · rw [updateNodeRecursive.eq_2, updateFun.eq_2, if_neg h, if_neg h]
        exact ⟨rfl, rfl⟩
    | some cs =>
      have hlist := updateChildren_bridge nodeId st cs
        (fun c hc cache2 => ih c (by simpa using hc) cache2) cache
      by_cases h : (HierarchyNode.mk i nm v (some cs) s cv d).id = nodeId
      · rw [updateNodeRecursive.eq_1, updateFun.eq_1, if_pos h, if_pos h]
        exact ⟨rfl, rfl⟩
      · rw [updateNodeRecursive.eq_1, updateFun.eq_1, if_neg h, if_neg h]
        simp only [hlist.1, hlist.2, calculateNodeValue_force]
        by_cases hch : (updateChildrenFun cs nodeId st).2 = true
        · simp only [hch]
          exact ⟨rfl, rfl⟩
        · simp only [hch]
          exact ⟨rfl, rfl⟩

theorem recalculateChildren_bridge (cs : List HierarchyNode)
    (H : ∀ c ∈ cs, ∀ cache : Cache, (recalculateNodeRecursive cache c).1 = recalcFun c) :
    ∀ cache : Cache, (recalculateChildren cache cs).1 = recalcChildrenFun cs := by
  induction cs with
  | nil => intro cache; rfl
  | cons c rest ih =>
    intro cache
    have hc := H c (by simp) cache
    have hrest := ih (fun x hx cache2 => H x (by simp [hx]) cache2)
      (recalculateNodeRecursive cache c).2
    simp only [recalculateChildren, recalcChildrenFun]
    rw [hc, hrest]

theorem recalc_bridge :
    ∀ (n : HierarchyNode) (cache : Cache), (recalculateNodeRecursive cache n).1 = recalcFun n := by
  intro n
  induction n using HierarchyNode.inductionOn with
  | step i nm v cs0 s cv d ih =>
    intro cache
    cases cs0 with
    | none => rfl
    | some cs =>
      have hlist := recalculateChildren_bridge cs
        (fun c hc cache2 => ih c (by simpa using hc) cache2) cache
      rw [recalculateNodeRecursive.eq_1, recalcFun.eq_1]
      simp only [hlist, calculateNodeValue_force]

theorem subtreeChildren_bridge (op : Status) (cs : List HierarchyNode)
    (H : ∀ c ∈ cs, ∀ cache : Cache, (applyToSubtree cache c op).1 = subtreeFun c op) :
    ∀ cache : Cache, (applyToSubtreeChildren cache cs op).1 = subtreeChildrenFun cs op := by
  induction cs with
  | nil => intro cache; rfl
  | cons c rest ih =>
    intro cache
    have hc := H c (by simp) cache
    have hrest := ih (fun x hx cache2 => H x (by simp [hx]) cache2)
      (applyToSubtree cache c op).2
    simp only [applyToSubtreeChildren, subtreeChildrenFun]
    rw [hc, hrest]

theorem subtree_bridge (op : Status) :
    ∀ (n : HierarchyNode) (cache : Cache), (applyToSubtree cache n op).1 = subtreeFun n op := by
  intro n
  induction n using HierarchyNode.inductionOn with
  | step i nm v cs0 s cv d ih =>
    intro cache
    cases cs0 with
    | none => rfl
    | some cs =>
      have hlist := subtreeChildren_bridge op cs
        (fun c hc cache2 => ih c (by simpa using hc) cache2) cache
      rw [applyToSubtree.eq_1, subtreeFun.eq_1]
      simp only [hlist, calculateNodeValue_force]

theorem bulkChildren_bridge (nodeId : String) (op : Status) (cs : List HierarchyNode)
    (H : ∀ c ∈ cs, ∀ cache : Cache,
      (applyBulkOperationRecursive cache c nodeId op).1 = (bulkFun c nodeId op).1 ∧
      (applyBulkOperationRecursive cache c nodeId op).2.1 = (bulkFun c nodeId op).2) :
    ∀ cache : Cache,
      (applyBulkChildrenRecursive cache cs nodeId op).1 = (bulkChildrenFun cs nodeId op).1 ∧
      (applyBulkChildrenRecursive cache cs nodeId op).2.1 = (bulkChildrenFun cs nodeId op).2 := by
  induction cs with
  | nil => intro cache; exact ⟨rfl, rfl⟩
  | cons c rest ih =>
    intro cache
    have hc := H c (by simp) cache
    have hrest := ih (fun x hx cache2 => H x (by simp [hx]) cache2)
      (applyBulkOperationRecursive cache c nodeId op).2.2
    simp only [applyBulkChildrenRecursive, bulkChildrenFun]
    constructor
    · rw [hc.1, hrest.1]
    · rw [hc.2, hrest.2]

theorem bulk_bridge (nodeId : String) (op : Status) :
    ∀ (n : HierarchyNode) (cache : Cache),
      (applyBulkOperationRecursive cache n nodeId op).1 = (bulkFun n nodeId op).1 ∧
      (applyBulkOperationRecursive cache n nodeId op).2.1 = (bulkFun n nodeId op).2 := by
  intro n
  induction n using HierarchyNode.inductionOn with
  | step i nm v cs0 s cv d ih =>
    intro cache
    cases cs0 with
    | none =>
      by_cases h : (HierarchyNode.mk i nm v none s cv d).id = nodeId
      · rw [applyBulkOperationRecursive.eq_2, bulkFun.eq_2, if_pos h, if_pos h]
        exact ⟨subtree_bridge op _ cache, rfl⟩
      · rw [applyBulkOperationRecursive.eq_2, bulkFun.eq_2, if_neg h, if_neg h]
        exact ⟨rfl, rfl⟩
    | some cs =>
      have hlist := bulkChildren_bridge nodeId op cs
        (fun c hc cache2 => ih c (by simpa using hc) cache2) cache
      by_cases h : (HierarchyNode.mk i nm v (some cs) s cv d).id = nodeId
      · rw [applyBulkOperationRecursive.eq_1, bulkFun.eq_1, if_pos h, if_pos h]
        exact ⟨subtree_bridge op _ cache, rfl⟩
      · rw [applyBulkOperationRecursive.eq_1, bulkFun.eq_1, if_neg h, if_neg h]
        simp only [hlist.1, hlist.2, calculateNodeValue_force]
        by_cases hch : (bulkChildrenFun cs nodeId op).2 = true
        · simp only [hch]
          exact ⟨rfl, rfl⟩
        · simp only [hch]
          exact ⟨rfl, rfl⟩

theorem updateNodeStatus_bridge (cache : Cache) (t : HierarchyNode) (nodeId : String)
    (st : Status) : (updateNodeStatus cache t nodeId st).1 = (updateFun t nodeId st).1 :=
  (update_bridge nodeId st t cache).1

theorem recalculateTree_bridge (cache : Cache) (t : HierarchyNode) :
    (recalculateTree cache t).1 = recalcFun t :=
  recalc_bridge t cache.clear

theorem applyBulkOperation_bridge (cache : Cache) (t : HierarchyNode) (nodeId : String)
    (op : Status) : (applyBulkOperation cache t nodeId op).1 = (bulkFun t nodeId op).1 :=
  (bulk_bridge nodeId op t cache).1

theorem allNodesList_cons (c : HierarchyNode) (rest : List HierarchyNode) :
    allNodesList (c :: rest) = allNodes c ++ allNodesList rest := rfl

theorem mem_allNodesList {n : HierarchyNode} :
    ∀ {cs : List HierarchyNode}, n ∈ allNodesList cs ↔ ∃ c ∈ cs, n ∈ allNodes c := by
  intro cs
  induction cs with
  | nil => simp [allNodesList]
  | cons c rest ih => simp [allNodesList_cons, List.mem_append, ih]

theorem allNodes_mk (i nm : String) (v : Option ℚ) (cs0 : Option (List HierarchyNode))
    (s : Status) (cv : ℚ) (d : ℕ) :
    allNodes (.mk i nm v cs0 s cv d) =
      .mk i nm v cs0 s cv d :: allNodesList (cs0.getD []) := by
  cases cs0 <;> rfl

theorem mem_allIds {x : String} {t : HierarchyNode} :
    x ∈ allIds t ↔ ∃ n ∈ allNodes t, n.id = x := by
  simp [allIds, List.mem_map]

theorem allIds_mk (i nm : String) (v : Option ℚ) (cs0 : Option (List HierarchyNode))
    (s : Status) (cv : ℚ) (d : ℕ) :
    allIds (.mk i nm v cs0 s cv d) =
      i :: (allNodesList (cs0.getD [])).map HierarchyNode.id := by
  simp [allIds, allNodes_mk, HierarchyNode.id]

theorem mem_allIds_of_child {x : String} {c : HierarchyNode} {cs : List HierarchyNode}
    (hc : c ∈ cs) (hx : x ∈ allIds c) (i nm : String) (v : Option ℚ) (s : Status) (cv : ℚ)
    (d : ℕ) : x ∈ allIds (HierarchyNode.mk i nm v (some cs) s cv d) := by
  rw [allIds_mk]

  rcases mem_allIds.1 hx with ⟨n, hn, hid⟩
  exact List.mem_cons_of_mem _ (List.mem_map.2 ⟨n, mem_allNodesList.2 ⟨c, hc, hn⟩, hid⟩)

theorem not_mem_allIds_child {x : String} {c : HierarchyNode} {cs : List HierarchyNode}
    {i nm : String} {v : Option ℚ} {s : Status} {cv : ℚ} {d : ℕ}
    (h : x ∉ allIds (HierarchyNode.mk i nm v (some cs) s cv d)) (hc : c ∈ cs) :
    x ∉ allIds c :=
  fun hx => h (mem_allIds_of_child hc hx i nm v s cv d)

theorem self_id_mem_allIds (t : HierarchyNode) : t.id ∈ allIds t := by
  cases t with
  | mk i nm v cs0 s cv d =>
    rw [allIds_mk]
    simp only [HierarchyNode.id]
    exact List.mem_cons_self i _

theorem updateChildrenFun_not_found (nodeId : String) (st : Status)
    (cs : List HierarchyNode) (H : ∀ c ∈ cs, updateFun c nodeId st = (c, false)) :
    updateChildrenFun cs nodeId st = (cs, false) := by
  induction cs with
  | nil => rfl
  | cons c rest ih =>
    have hc := H c (by simp)
    have hrest := ih (fun x hx => H x (by simp [hx]))
    simp only [updateChildrenFun, hc, hrest]
    rfl

theorem updateFun_not_found (nodeId : String) (st : Status) :
    ∀ t : HierarchyNode, nodeId ∉ allIds t → updateFun t nodeId st = (t, false) := by
  intro t
  induction t using HierarchyNode.inductionOn with
  | step i nm v cs0 s cv d ih =>
    intro hmem
    have hid : ¬ (HierarchyNode.mk i nm v cs0 s cv d).id = nodeId := by
      intro h
      exact hmem (h ▸ self_id_mem_allIds _)
    cases cs0 with
    | none => rw [updateFun.eq_2, if_neg hid]
    | some cs =>
      have hlist := updateChildrenFun_not_found nodeId st cs
        (fun c hc => ih c (by simpa using hc) (not_mem_allIds_child hmem hc))
      rw [updateFun.eq_1, if_neg hid]
      simp only [hlist]
      rfl

theorem bulkChildrenFun_not_found (nodeId : String) (op : Status)
    (cs : List HierarchyNode) (H : ∀ c ∈ cs, bulkFun c nodeId op = (c, false)) :
    bulkChildrenFun cs nodeId op = (cs, false) := by
  induction cs with
  | nil => rfl
  | cons c rest ih =>
    have hc := H c (by simp)
    have hrest := ih (fun x hx => H x (by simp [hx]))
    simp only [bulkChildrenFun, hc, hrest]
    rfl

theorem bulkFun_not_found (nodeId : String) (op : Status) :
    ∀ t : HierarchyNode, nodeId ∉ allIds t → bulkFun t nodeId op = (t, false) := by
  intro t
  induction t using HierarchyNode.inductionOn with
  | step i nm v cs0 s cv d ih =>
    intro hmem
    have hid : ¬ (HierarchyNode.mk i nm v cs0 s cv d).id = nodeId := by
      intro h
      exact hmem (h ▸ self_id_mem_allIds _)
    cases cs0 with
    | none => rw [bulkFun.eq_2, if_neg hid]
    | some cs =>
      have hlist := bulkChildrenFun_not_found nodeId op cs
        (fun c hc => ih c (by simpa using hc) (not_mem_allIds_child hmem hc))
      rw [bulkFun.eq_1, if_neg hid]
      simp only [hlist]
      rfl

theorem mem_allIds_mk_iff {x : String} {i nm : String} {v : Option ℚ}
    {cs : List HierarchyNode} {s : Status} {cv : ℚ} {d : ℕ} :
    x ∈ allIds (HierarchyNode.mk i nm v (some cs) s cv d) ↔
      x = i ∨ ∃ c ∈ cs, x ∈ allIds c := by
  rw [allIds_mk]
  simp only [Option.getD_some, List.mem_cons, List.mem_map]
  constructor
  · rintro (h | ⟨n, hn, hid⟩)
    · exact Or.inl h
    · rcases mem_allNodesList.1 hn with ⟨c, hc, hnc⟩
      exact Or.inr ⟨c, hc, mem_allIds.2 ⟨n, hnc, hid⟩⟩
  · rintro (h | ⟨c, hc, hx⟩)
    · exact Or.inl h
    · rcases mem_allIds.1 hx with ⟨n, hn, hid⟩
      exact Or.inr ⟨n, mem_allNodesList.2 ⟨c, hc, hn⟩, hid⟩

theorem updateChildrenFun_components (nodeId : String) (st : Status)
    (cs : List HierarchyNode) :
    (updateChildrenFun cs nodeId st).1 = cs.map (fun c => (updateFun c nodeId st).1) ∧
    (updateChildrenFun cs nodeId st).2 = cs.any (fun c => (updateFun c nodeId st).2) := by
  induction cs with
  | nil => exact ⟨rfl, rfl⟩
  | cons c rest ih =>
    simp only [updateChildrenFun, List.map_cons, List.any_cons, ih.1, ih.2]
    constructor <;> trivial

theorem bulkChildrenFun_components (nodeId : String) (op : Status)
    (cs : List HierarchyNode) :
    (bulkChildrenFun cs nodeId op).1 = cs.map (fun c => (bulkFun c nodeId op).1) ∧
    (bulkChildrenFun cs nodeId op).2 = cs.any (fun c => (bulkFun c nodeId op).2) := by
  induction cs with
  | nil => exact ⟨rfl, rfl⟩
  | cons c rest ih =>
    simp only [bulkChildrenFun, List.map_cons, List.any_cons, ih.1, ih.2]
    constructor <;> trivial

theorem updateFun_changed (nodeId : String) (st : Status) :
    ∀ t : HierarchyNode, nodeId ∈ allIds t → (updateFun t nodeId st).2 = true := by
  intro t
  induction t using HierarchyNode.inductionOn with
  | step i nm v cs0 s cv d ih =>
    intro hmem
    by_cases h : (HierarchyNode.mk i nm v cs0 s cv d).id = nodeId
    · cases cs0 with
      | none => rw [updateFun.eq_2, if_pos h]
      | some cs => rw [updateFun.eq_1, if_pos h]
    · cases cs0 with
      | none =>
        exfalso
        rw [allIds_mk] at hmem
        simp only [Option.getD_none, allNodesList, List.map_nil, List.mem_singleton] at hmem
        exact h (by simp [HierarchyNode.id, hmem])
      | some cs =>
        have hx : ∃ c ∈ cs, nodeId ∈ allIds c := by
          rcases mem_allIds_mk_iff.1 hmem with hh | hh
          · exact absurd (by simp [HierarchyNode.id, hh]) h
          · exact hh
        rcases hx with ⟨c, hc, hxc⟩
        have hchanged := ih c (by simpa using hc) hxc
        have hany : (updateChildrenFun cs nodeId st).2 = true := by
          rw [(updateChildrenFun_components nodeId st cs).2]
          exact List.any_eq_true.2 ⟨c, hc, hchanged⟩
        rw [updateFun.eq_1, if_neg h]
        simp only [hany, if_true]

theorem bulkFun_changed (nodeId : String) (op : Status) :
    ∀ t : HierarchyNode, nodeId ∈ allIds t → (bulkFun t nodeId op).2 = true := by
  intro t
  induction t using HierarchyNode.inductionOn with
  | step i nm v cs0 s cv d ih =>
    intro hmem
    by_cases h : (HierarchyNode.mk i nm v cs0 s cv d).id = nodeId
    · cases cs0 with
      | none => rw [bulkFun.eq_2, if_pos h]
      | some cs => rw [bulkFun.eq_1, if_pos h]
    · cases cs0 with
      | none =>
        exfalso
        rw [allIds_mk] at hmem
        simp only [Option.getD_none, allNodesList, List.map_nil, List.mem_singleton] at hmem
        exact h (by simp [HierarchyNode.id, hmem])
      | some cs =>
        have hx : ∃ c ∈ cs, nodeId ∈ allIds c := by
          rcases mem_allIds_mk_iff.1 hmem with hh | hh
          · exact absurd (by simp [HierarchyNode.id, hh]) h
          · exact hh
        rcases hx with ⟨c, hc, hxc⟩
        have hchanged := ih c (by simpa using hc) hxc
        have hany : (bulkChildrenFun cs nodeId op).2 = true := by
          rw [(bulkChildrenFun_components nodeId op cs).2]
          exact List.any_eq_true.2 ⟨c, hc, hchanged⟩
        rw [bulkFun.eq_1, if_neg h]
        simp only [hany, if_true]

/-- Claim C3: running recalculate, setStatus or applyBulkOperation with the
memoization cache disabled (capacity 0, every lookup a miss) produces an
output tree identical, node for node and field for field, to running it
with any cache state, in particular the enabled 50000-entry cache.  This
holds because all three operations force recalculation on every rebuilt
node. -/
theorem cache_transparency (cache : Cache) (t : HierarchyNode) (nodeId : String)
    (st op : Status) :
    (recalculateTree disabledCache t).1 = (recalculateTree cache t).1 ∧
    (updateNodeStatus disabledCache t nodeId st).1 = (updateNodeStatus cache t nodeId st).1 ∧
    (applyBulkOperation disabledCache t nodeId op).1 = (applyBulkOperation cache t nodeId op).1 := by
  refine ⟨?_, ?_, ?_⟩
  · rw [recalculateTree_bridge, recalculateTree_bridge]
  · rw [updateNodeStatus_bridge, updateNodeStatus_bridge]
  · rw [applyBulkOperation_bridge, applyBulkOperation_bridge]

/-- Claim C5: when the target id occurs nowhere in the tree, setStatus and
applyBulkOperation return the original root unchanged (and their
reference-change flag is false, i.e. it is the very same object), with no
error raised. -/
theorem unknown_id_noop (cache : Cache) (t : HierarchyNode) (nodeId : String)
    (st op : Status) (h : nodeId ∉ allIds t) :
    (updateNodeStatus cache t nodeId st).1 = t ∧
    (updateNodeRecursive cache t nodeId st).2.1 = false ∧
    (applyBulkOperation cache t nodeId op).1 = t ∧
    (applyBulkOperationRecursive cache t nodeId op).2.1 = false := by
  have h1 := updateNodeStatus_bridge cache t nodeId st
  have h2 := (update_bridge nodeId st t cache).2
  have h3 := applyBulkOperation_bridge cache t nodeId op
  have h4 := (bulk_bridge nodeId op t cache).2
  rw [updateFun_not_found nodeId st t h] at h1 h2
  rw [bulkFun_not_found nodeId op t h] at h3 h4
  exact ⟨h1, h2, h3, h4⟩

/-- Witness for C5 at a concrete input: the id zzz is absent from the
two-leaf witness tree, and both operations leave it untouched. -/
theorem unknown_id_noop_witness :
    "zzz" ∉ allIds witnessTree ∧
    ((updateNodeStatus disabledCache witnessTree "zzz" .skip).1 = witnessTree ∧
     (updateNodeRecursive disabledCache witnessTree "zzz" .skip).2.1 = false ∧
     (applyBulkOperation disabledCache witnessTree "zzz" .invert).1 = witnessTree ∧
     (applyBulkOperationRecursive disabledCache witnessTree "zzz" .invert).2.1 = false) :=
  ⟨by decide, unknown_id_noop disabledCache witnessTree "zzz" .skip .invert (by decide)⟩

theorem allNodesList_all (p : HierarchyNode → Bool) :
    ∀ cs : List HierarchyNode,
      (allNodesList cs).all p = cs.all (fun c => (allNodes c).all p) := by
  intro cs
  induction cs with
  | nil => rfl
  | cons c rest ih => simp [allNodesList_cons, List.all_append, ih]

theorem resolvedTree_mk_some (i nm : String) (v : Option ℚ) (cs : List HierarchyNode)
    (s : Status) (cv : ℚ) (d : ℕ) :
    resolvedTree (.mk i nm v (some cs) s cv d) =
      (nodeLocalInvariant (.mk i nm v (some cs) s cv d) &&
        cs.all (fun c => resolvedTree c)) := by
  unfold resolvedTree
  rw [allNodes_mk]
  simp [List.all_cons, allNodesList_all]

theorem resolvedTree_mk_none (i nm : String) (v : Option ℚ) (s : Status) (cv : ℚ) (d : ℕ) :
    resolvedTree (.mk i nm v none s cv d) = nodeLocalInvariant (.mk i nm v none s cv d) := by
  unfold resolvedTree
  rw [allNodes_mk]
  simp [allNodesList]

theorem isLeafNode_withCV (n : HierarchyNode) (x : ℚ) :
    isLeafNode (n.withCalculatedValue x) = isLeafNode n := by
  cases n; rfl

theorem calculateLeafValue_withCV (n : HierarchyNode) (x : ℚ) :
    calculateLeafValue (n.withCalculatedValue x) = calculateLeafValue n := by
  cases n; rfl

theorem calculateParentValue_withCV (n : HierarchyNode) (x : ℚ) :
    calculateParentValue (n.withCalculatedValue x) = calculateParentValue n := by
  cases n; rfl

theorem calculatedValue_withCV (n : HierarchyNode) (x : ℚ) :
    (n.withCalculatedValue x).calculatedValue = x := by
  cases n; rfl

theorem nodeLocalInvariant_withCV_resolve (n : HierarchyNode) :
    nodeLocalInvariant (n.withCalculatedValue (resolveNodeValue n)) = true := by
  unfold nodeLocalInvariant resolveNodeValue
  rw [isLeafNode_withCV, calculateLeafValue_withCV, calculateParentValue_withCV,
    calculatedValue_withCV]
  by_cases h : isLeafNode n
  · simp [h]
  · simp [h]

theorem recalcChildrenFun_eq_map :
    ∀ cs : List HierarchyNode, recalcChildrenFun cs = cs.map recalcFun := by
  intro cs
  induction cs with
  | nil => rfl
  | cons c rest ih => simp only [recalcChildrenFun, ih, List.map_cons]

theorem resolvedTree_recalcFun : ∀ t : HierarchyNode, resolvedTree (recalcFun t) = true := by
  intro t
  induction t using HierarchyNode.inductionOn with
  | step i nm v cs0 s cv d ih =>
    cases cs0 with
    | none =>
      rw [recalcFun.eq_2]
      have : (HierarchyNode.mk i nm v none s cv d).withCalculatedValue
          (resolveNodeValue (HierarchyNode.mk i nm v none s cv d)) =
          HierarchyNode.mk i nm v none s
            (resolveNodeValue (HierarchyNode.mk i nm v none s cv d)) d := rfl
      rw [this, resolvedTree_mk_none]
      have h2 := nodeLocalInvariant_withCV_resolve (HierarchyNode.mk i nm v none s cv d)
      rw [show (HierarchyNode.mk i nm v none s cv d).withCalculatedValue
          (resolveNodeValue (HierarchyNode.mk i nm v none s cv d)) =
          HierarchyNode.mk i nm v none s
            (resolveNodeValue (HierarchyNode.mk i nm v none s cv d)) d from rfl] at h2
      exact h2
    | some cs =>
      rw [recalcFun.eq_1]
      have hrw : (HierarchyNode.mk i nm v (some (recalcChildrenFun cs)) s cv d).withCalculatedValue
          (resolveNodeValue (HierarchyNode.mk i nm v (some (recalcChildrenFun cs)) s cv d)) =
          HierarchyNode.mk i nm v (some (recalcChildrenFun cs)) s
            (resolveNodeValue (HierarchyNode.mk i nm v (some (recalcChildrenFun cs)) s cv d)) d := rfl
      rw [hrw, resolvedTree_mk_some]
      have h2 := nodeLocalInvariant_withCV_resolve
        (HierarchyNode.mk i nm v (some (recalcChildrenFun cs)) s cv d)
      rw [hrw] at h2
      rw [h2]
      simp only [Bool.true_and]
      rw [recalcChildrenFun_eq_map]
      rw [List.all_eq_true]
      intro c' hc'
      rcases List.mem_map.1 hc' with ⟨c, hc, rfl⟩
      exact ih c (by simpa using hc)

theorem clearCalculatedList_recalc :
    ∀ cs : List HierarchyNode,
      (∀ c ∈ cs, clearCalculated (recalcFun c) = clearCalculated c) →
      clearCalculatedList (recalcChildrenFun cs) = clearCalculatedList cs := by
  intro cs
  induction cs with
  | nil => intro _; rfl
  | cons c rest ih =>
    intro H
    simp only [recalcChildrenFun, clearCalculatedList]
    rw [H c (by simp), ih (fun x hx => H x (by simp [hx]))]

theorem clearCalculated_recalcFun :
    ∀ t : HierarchyNode, clearCalculated (recalcFun t) = clearCalculated t := by
  intro t
  induction t using HierarchyNode.inductionOn with
  | step i nm v cs0 s cv d ih =>
    cases cs0 with
    | none => rfl
    | some cs =>
      rw [recalcFun.eq_1]
      have hlist := clearCalculatedList_recalc cs (fun c hc => ih c (by simpa using hc))
      show HierarchyNode.mk i nm v (some (clearCalculatedList (recalcChildrenFun cs))) s 0 d =
        HierarchyNode.mk i nm v (some (clearCalculatedList cs)) s 0 d
      rw [hlist]

/-- Claim C1: after recalculate, every internal node's calculatedValue is
the sum of its children's calculatedValues signed by its own status (0 for
skip, negated for invert), and every leaf's calculatedValue is its raw value
(0 when absent) signed the same way — for any starting cache state. -/
theorem recalculate_establishes_invariant (cache : Cache) (t : HierarchyNode) :
    resolvedTree (recalculateTree cache t).1 = true := by
  rw [recalculateTree_bridge]
  exact resolvedTree_recalcFun t

/-- Claim C10: recalculate only replaces calculatedValue: the output tree
has the same shape as the input and every node keeps its id, name, value,
status and depth (statuses are kept, not reset to normal). -/
theorem recalculate_frame (cache : Cache) (t : HierarchyNode) :
    clearCalculated (recalculateTree cache t).1 = clearCalculated t := by
  rw [recalculateTree_bridge]
  exact clearCalculated_recalcFun t

/-- Validation of the binary64 model: the significand/denominator pairs it
assigns to the sample's key decimal literals are the standard IEEE-754
binary64 values (the doubles nearest 113.4, 46.4, 42.7, 156.1 and
156.10000000000002; the last two are distinct adjacent doubles). -/
theorem float64Lit_values :
    (float64Lit 113.4).num = 3989907794873549 ∧
    (float64Lit 113.4).den = 35184372088832 ∧
    (float64Lit 46.4).num = 6530219459687219 ∧
    (float64Lit 46.4).den = 140737488355328 ∧
    (float64Lit 42.7).num = 3004745376386253 ∧
    (float64Lit 42.7).den = 70368744177664 ∧
    (float64Lit 156.1).num = 5492280483066675 ∧
    (float64Lit 156.1).den = 35184372088832 ∧
    (float64Lit 156.10000000000002).num = 1373070120766669 ∧
    (float64Lit 156.10000000000002).den = 8796093022208 := by
  with_unfolding_all decide

/-- Counterexample to C8 as stated: in the program's IEEE-754 binary64
arithmetic, the Q3 aggregate that setStatus(tree, aug, skip) recomputes —
the reduce fold of calculateParentValue over the child aggregates 113.4, 0
and 42.7 — equals the double denoted 156.10000000000002, which is a
different double than 156.1; the asserted equality Q3 = 156.1 is false for
the program (it holds only in the exact-rational idealization of its
arithmetic). -/
theorem sample_float_counterexample :
    float64ChildrenSum [float64Lit 113.4, 0, float64Lit 42.7] =
      float64Lit 156.10000000000002 ∧
    float64ChildrenSum [float64Lit 113.4, 0, float64Lit 42.7] ≠ float64Lit 156.1 ∧
    float64Lit 156.10000000000002 ≠ float64Lit 156.1 := by
  exact ⟨Rat.ext (by with_unfolding_all decide) (by with_unfolding_all decide),
    by with_unfolding_all decide, by with_unfolding_all decide⟩

set_option maxRecDepth 1000000 in
/-- Engine fact for the amended C8: after setStatus(tree, aug, skip) the
rebuilt tree reuses the Oct, Nov, Dec and Q4 nodes untouched (an
arithmetic-independent structural fact of updateNodeRecursive). -/
theorem c8_reuse_oct_nov_dec_q4 :
    findNodeById c8state1.1 "oct" = findNodeById c8state0.1 "oct" ∧
    findNodeById c8state1.1 "nov" = findNodeById c8state0.1 "nov" ∧
    findNodeById c8state1.1 "dec" = findNodeById c8state0.1 "dec" ∧
    findNodeById c8state1.1 "q4" = findNodeById c8state0.1 "q4" := by
  with_unfolding_all decide

/-- Claim C8 (amended): in the program's IEEE-754 binary64 arithmetic (the
reduce fold of calculateParentValue over the stored child aggregates, the
leaves carrying the binary64 values of the sample literals), recalculate
yields Q3 = 202.5, Q4 = 237.5 and Total = 440.0 exactly; setStatus(tree,
aug, skip) then yields Q3 = 156.10000000000002 — one unit in the last place
above the double 156.1, not 156.1 — and Total = 393.6, with the Oct, Nov,
Dec and Q4 nodes (Q4 still 237.5) reused untouched by the rebuild; a
further setStatus(tree, aug, invert) yields Q3 = 109.7 and Total = 347.2.
The reused-subtree facts are arithmetic-independent and are stated on the
engine embedding's run over the sample tree. -/
theorem sample_example_values_float64 :
    (float64ChildrenSum [float64Lit 113.4, float64Lit 46.4, float64Lit 42.7] =
        float64Lit 202.5 ∧
     float64ChildrenSum [float64Lit 115.5, float64Lit 24.8, float64Lit 97.2] =
        float64Lit 237.5 ∧
     float64ChildrenSum
        [float64ChildrenSum [float64Lit 113.4, float64Lit 46.4, float64Lit 42.7],
         float64ChildrenSum [float64Lit 115.5, float64Lit 24.8, float64Lit 97.2]] =
        float64Lit 440.0) ∧
    (float64ChildrenSum [float64Lit 113.4, 0, float64Lit 42.7] =
        float64Lit 156.10000000000002 ∧
     float64ChildrenSum
        [float64ChildrenSum [float64Lit 113.4, 0, float64Lit 42.7],
         float64ChildrenSum [float64Lit 115.5, float64Lit 24.8, float64Lit 97.2]] =
        float64Lit 393.6) ∧
    (float64ChildrenSum [float64Lit 113.4, -(float64Lit 46.4), float64Lit 42.7] =
        float64Lit 109.7 ∧
     float64ChildrenSum
        [float64ChildrenSum [float64Lit 113.4, -(float64Lit 46.4), float64Lit 42.7],
         float64ChildrenSum [float64Lit 115.5, float64Lit 24.8, float64Lit 97.2]] =
        float64Lit 347.2) ∧
    (findNodeById c8state1.1 "oct" = findNodeById c8state0.1 "oct" ∧
     findNodeById c8state1.1 "nov" = findNodeById c8state0.1 "nov" ∧
     findNodeById c8state1.1 "dec" = findNodeById c8state0.1 "dec" ∧
     findNodeById c8state1.1 "q4" = findNodeById c8state0.1 "q4") := by
  refine ⟨⟨?_, ?_, ?_⟩, ⟨?_, ?_⟩, ⟨?_, ?_⟩, c8_reuse_oct_nov_dec_q4⟩ <;>
    exact Rat.ext (by with_unfolding_all decide) (by with_unfolding_all decide)

theorem lru_get_length_le [DecidableEq K] (c : LRUCache K V) (k : K)
    (h : c.entries.length ≤ c.maxSize) :
    ((LRUCache.get c k).2).entries.length ≤ c.maxSize := by
  unfold LRUCache.get
  cases hl : List.lookup k c.entries with
  | none => simpa using h
  | some v =>
    have hany : c.entries.any (fun p => p.1 == k) = true := by
      rcases List.lookup_eq_some_iff.1 hl with ⟨l1, l2, hsplit, _⟩
      rw [hsplit]
      simp
    simp only [List.length_append, List.length_eraseP, hany, if_true, List.length_cons,
      List.length_nil]
    have hne : c.entries ≠ [] := by
      intro hnil
      rw [hnil] at hl
      simp at hl
    have hpos : 1 ≤ c.entries.length := by
      cases hcs : c.entries with
      | nil => exact absurd hcs hne
      | cons a as => simp
    omega

theorem lru_set_length_le [DecidableEq K] (c : LRUCache K V) (k : K) (v : V)
    (hm : 1 ≤ c.maxSize) (h : c.entries.length ≤ c.maxSize) :
    (LRUCache.set c k v).entries.length ≤ c.maxSize := by
  unfold LRUCache.set
  by_cases hany : c.entries.any (fun p => p.1 == k) = true
  · have hne : c.entries ≠ [] := by
      intro hnil
      rw [hnil] at hany
      simp at hany
    have hpos : 1 ≤ c.entries.length := by
      cases hcs : c.entries with
      | nil => exact absurd hcs hne
      | cons a as => simp
    rw [if_pos hany]
    simp only [List.length_append, List.length_eraseP, hany, if_true, List.length_cons,
      List.length_nil]
    omega
  · rw [if_neg hany]
    by_cases hcap : c.maxSize ≤ c.entries.length
    · have hpos : 1 ≤ c.entries.length := le_trans hm hcap
      rw [if_pos hcap]
      simp only [List.length_append, List.length_tail, List.length_cons, List.length_nil]
      omega
    · rw [if_neg hcap]
      simp only [List.length_append, List.length_cons, List.length_nil]
      omega

theorem lru_get_maxSize [DecidableEq K] (c : LRUCache K V) (k : K) :
    ((LRUCache.get c k).2).maxSize = c.maxSize := by
  unfold LRUCache.get
  cases List.lookup k c.entries <;> rfl

theorem lru_set_maxSize [DecidableEq K] (c : LRUCache K V) (k : K) (v : V) :
    (LRUCache.set c k v).maxSize = c.maxSize := by
  unfold LRUCache.set
  by_cases hany : c.entries.any (fun p => p.1 == k) = true
  · simp [hany]
  · by_cases hcap : c.maxSize ≤ c.entries.length <;> simp [hany, hcap]

theorem runCacheOps_length_le [DecidableEq K] :
    ∀ (ops : List (CacheOp K V)) (c : LRUCache K V), 1 ≤ c.maxSize →
      c.entries.length ≤ c.maxSize →
      (runCacheOps c ops).entries.length ≤ (runCacheOps c ops).maxSize := by
  intro ops
  induction ops with
  | nil => intro c hm h; exact h
  | cons op rest ih =>
    intro c hm h
    cases op with
    | get k =>
      have h2 := lru_get_length_le c k h
      have h3 := lru_get_maxSize c k
      exact ih _ (by rw [h3]; exact hm) (by rw [h3]; exact h2)
    | set k v =>
      have h2 := lru_set_length_le c k v hm h
      have h3 := lru_set_maxSize c k v
      exact ih _ (by rw [h3]; exact hm) (by rw [h3]; exact h2)

theorem runCacheOps_maxSize [DecidableEq K] :
    ∀ (ops : List (CacheOp K V)) (c : LRUCache K V),
      (runCacheOps c ops).maxSize = c.maxSize := by
  intro ops
  induction ops with
  | nil => intro c; rfl
  | cons op rest ih =>
    intro c
    cases op with
    | get k => rw [runCacheOps, ih, lru_get_maxSize]
    | set k v => rw [runCacheOps, ih, lru_set_maxSize]

theorem lru_get_marks_mru [DecidableEq K] (c : LRUCache K V) (k : K) (v : V)
    (h : List.lookup k c.entries = some v) :
    ((LRUCache.get c k).2).entries.getLast? = some (k, v) := by
  unfold LRUCache.get
  rw [h]
  exact List.getLast?_concat _

theorem lru_set_evicts_lru [DecidableEq K] (c : LRUCache K V) (k : K) (v : V)
    (e : K × V) (es : List (K × V))
    (hnew : c.entries.any (fun p => p.1 == k) = false)
    (hcap : c.maxSize ≤ c.entries.length) (hent : c.entries = e :: es) :
    (LRUCache.set c k v).entries = es ++ [(k, v)] := by
  unfold LRUCache.set
  rw [if_neg (by rw [hnew]; exact Bool.false_ne_true), if_pos hcap, hent]
  rfl

/-- Counterexample to C9 as stated: the cache constructed with configured
maximum 0 stores one entry after a single set (the eviction of the first
key of an empty map is a no-op), so the number of stored entries exceeds
the configured maximum. -/
theorem lru_bound_counterexample :
    ((LRUCache.mk ([] : List (String × ℚ)) 0).set "a" 1).entries.length = 1 ∧
    ¬ ((LRUCache.mk ([] : List (String × ℚ)) 0).set "a" 1).entries.length ≤
        (LRUCache.mk ([] : List (String × ℚ)) 0).maxSize := by
  decide

/-- Claim C9 (amended): for a configured maximum of at least 1, after any
sequence of get and set operations starting from the empty cache the number
of stored entries never exceeds the maximum; a get on a present key
re-inserts that entry at the most-recently-used end; and a set of a new key
at capacity evicts exactly the least-recently-used (first) entry. -/
theorem lru_contract (K V : Type) [DecidableEq K] (m : ℕ) (ops : List (CacheOp K V))
    (hm : 1 ≤ m) :
    (runCacheOps (⟨[], m⟩ : LRUCache K V) ops).entries.length ≤ m ∧
    (∀ (c : LRUCache K V) (k : K) (v : V), List.lookup k c.entries = some v →
      ((LRUCache.get c k).2).entries.getLast? = some (k, v)) ∧
    (∀ (c : LRUCache K V) (k : K) (v : V) (e : K × V) (es : List (K × V)),
      c.entries.any (fun p => p.1 == k) = false → c.maxSize ≤ c.entries.length →
      c.entries = e :: es → (LRUCache.set c k v).entries = es ++ [(k, v)]) := by
  refine ⟨?_, lru_get_marks_mru, lru_set_evicts_lru⟩
  have h := runCacheOps_length_le ops (⟨[], m⟩ : LRUCache K V) hm (by simp)
  rwa [runCacheOps_maxSize] at h

/-- Witness for C9 (amended) at a concrete input: maximum 1 and two set
operations. -/
theorem lru_contract_witness :
    (1 ≤ 1) ∧
    ((runCacheOps (⟨[], 1⟩ : LRUCache String ℚ)
        [.set "a" 1, .set "b" 2]).entries.length ≤ 1 ∧
     (∀ (c : LRUCache String ℚ) (k : String) (v : ℚ),
        List.lookup k c.entries = some v →
        ((LRUCache.get c k).2).entries.getLast? = some (k, v)) ∧
     (∀ (c : LRUCache String ℚ) (k : String) (v : ℚ) (e : String × ℚ)
        (es : List (String × ℚ)),
        c.entries.any (fun p => p.1 == k) = false → c.maxSize ≤ c.entries.length →
        c.entries = e :: es → (LRUCache.set c k v).entries = es ++ [(k, v)])) :=
  ⟨by decide, lru_contract String ℚ 1 [.set "a" 1, .set "b" 2] (by decide)⟩

/-- Counterexample to C7 as stated: an empty-children node that carries raw
value 5 is treated as a leaf by the aggregation, but its aggregate under
status normal after recalculate is 5, not 0. -/
theorem empty_children_counterexample :
    isLeafNode emptyChildrenNode = true ∧
    ((recalculateTree disabledCache emptyChildrenNode).1).calculatedValue = 5 ∧
    ¬ ((recalculateTree disabledCache emptyChildrenNode).1).calculatedValue = 0 := by
  with_unfolding_all decide

/-- Claim C7 (amended): every node whose children field is an empty
sequence is treated as a leaf by the aggregation (the leaf calculation is
used for it), and its aggregate under status normal is its raw value, with
0 when the value is absent. -/
theorem empty_children_leaf (cache : Cache) (i nm : String) (v : Option ℚ) (s : Status)
    (cv : ℚ) (d : ℕ) :
    isLeafNode (.mk i nm v (some []) s cv d) = true ∧
    ((recalculateTree cache (.mk i nm v (some []) s cv d)).1).calculatedValue =
      calculateLeafValue (.mk i nm v (some []) s cv d) ∧
    ((recalculateTree cache (.mk i nm v (some []) .normal cv d)).1).calculatedValue =
      v.getD 0 := by
  refine ⟨rfl, ?_, ?_⟩
  · rw [recalculateTree_bridge]
    rfl
  · rw [recalculateTree_bridge]
    rfl

theorem mem_idsList_iff {x : String} {cs : List HierarchyNode} :
    x ∈ (allNodesList cs).map HierarchyNode.id ↔ ∃ c ∈ cs, x ∈ allIds c := by
  rw [List.mem_map]
  constructor
  · rintro ⟨n, hn, hid⟩
    rcases mem_allNodesList.1 hn with ⟨c, hc, hnc⟩
    exact ⟨c, hc, mem_allIds.2 ⟨n, hnc, hid⟩⟩
  · rintro ⟨c, hc, hx⟩
    rcases mem_allIds.1 hx with ⟨n, hn, hid⟩
    exact ⟨n, mem_allNodesList.2 ⟨c, hc, hn⟩, hid⟩

theorem idsList_cons (c : HierarchyNode) (rest : List HierarchyNode) :
    (allNodesList (c :: rest)).map HierarchyNode.id =
      allIds c ++ (allNodesList rest).map HierarchyNode.id := by
  rw [allNodesList_cons, List.map_append]
  rfl

theorem nodup_idsList_children :
    ∀ cs : List HierarchyNode, ((allNodesList cs).map HierarchyNode.id).Nodup →
      ∀ c ∈ cs, (allIds c).Nodup := by
  intro cs
  induction cs with
  | nil => intro _ c hc; simp at hc
  | cons c rest ih =>
    intro h x hx
    rw [idsList_cons, List.nodup_append] at h
    rcases List.mem_cons.1 hx with rfl | hx2
    · exact h.1
    · exact ih h.2.1 x hx2

theorem nodup_allIds_children {i nm : String} {v : Option ℚ} {cs : List HierarchyNode}
    {s : Status} {cv : ℚ} {d : ℕ}
    (h : (allIds (HierarchyNode.mk i nm v (some cs) s cv d)).Nodup) :
    ∀ c ∈ cs, (allIds c).Nodup := by
  rw [allIds_mk] at h
  exact nodup_idsList_children cs (List.Nodup.of_cons h)

theorem disjoint_idsList :
    ∀ cs : List HierarchyNode, ((allNodesList cs).map HierarchyNode.id).Nodup →
      ∀ (a b : ℕ) (ca cb : HierarchyNode), a ≠ b → cs[a]? = some ca → cs[b]? = some cb →
      ∀ x, x ∈ allIds ca → x ∉ allIds cb := by
  intro cs
  induction cs with
  | nil => intro _ a b ca cb _ ha; simp at ha
  | cons c rest ih =>
    intro h a b ca cb hne ha hb x hx
    rw [idsList_cons, List.nodup_append] at h
    cases a with
    | zero =>
      rw [List.getElem?_cons_zero, Option.some_inj] at ha
      subst ha
      cases b with
      | zero => exact absurd rfl hne
      | succ b2 =>
        rw [List.getElem?_cons_succ] at hb
        intro hxb
        exact h.2.2 hx (mem_idsList_iff.2 ⟨cb, List.getElem?_mem hb, hxb⟩)
    | succ a2 =>
      rw [List.getElem?_cons_succ] at ha
      cases b with
      | zero =>
        rw [List.getElem?_cons_zero, Option.some_inj] at hb
        subst hb
        intro hxb
        exact h.2.2 hxb (mem_idsList_iff.2 ⟨ca, List.getElem?_mem ha, hx⟩)
      | succ b2 =>
        rw [List.getElem?_cons_succ] at hb
        exact ih h.2.1 a2 b2 ca cb (fun hh => hne (by rw [hh])) ha hb x hx

theorem nodup_children_disjoint {i nm : String} {v : Option ℚ} {cs : List HierarchyNode}
    {s : Status} {cv : ℚ} {d : ℕ}
    (h : (allIds (HierarchyNode.mk i nm v (some cs) s cv d)).Nodup) :
    ∀ (a b : ℕ) (ca cb : HierarchyNode), a ≠ b → cs[a]? = some ca → cs[b]? = some cb →
      ∀ x, x ∈ allIds ca → x ∉ allIds cb := by
  rw [allIds_mk] at h
  exact disjoint_idsList cs (List.Nodup.of_cons h)

theorem pathToList_spec :
    ∀ (cs : List HierarchyNode) (id : String) (k : ℕ) (q : List ℕ),
      pathToList cs id k = some q →
      ∃ (j : ℕ) (rest : List ℕ) (c : HierarchyNode),
        q = (k + j) :: rest ∧ cs[j]? = some c ∧ pathTo c id = some rest ∧
        (∀ m, m < j → ∀ cm, cs[m]? = some cm → pathTo cm id = none) := by
  intro cs
  induction cs with
  | nil =>
    intro id k q h
    rw [pathToList] at h
    exact absurd h (by simp)
  | cons c rest ih =>
    intro id k q h
    rw [pathToList] at h
    cases hc : pathTo c id with
    | some p =>
      rw [hc] at h
      rw [Option.some_inj] at h
      refine ⟨0, p, c, ?_, ?_, hc, ?_⟩
      · rw [Nat.add_zero]; exact h.symm
      · rw [List.getElem?_cons_zero]
      · intro m hm; exact absurd hm (Nat.not_lt_zero m)
    | none =>
      rw [hc] at h
      rcases ih id (k + 1) q h with ⟨j2, rest2, c2, hq, hidx, hp, hfirst⟩
      refine ⟨j2 + 1, rest2, c2, ?_, ?_, hp, ?_⟩
      · rw [hq]; congr 1; omega
      · rw [List.getElem?_cons_succ]; exact hidx
      · intro m hm cm hcm
        cases m with
        | zero =>
          rw [List.getElem?_cons_zero, Option.some_inj] at hcm
          rw [← hcm]; exact hc
        | succ m2 =>
          rw [List.getElem?_cons_succ] at hcm
          exact hfirst m2 (by omega) cm hcm

theorem pathTo_some_mem :
    ∀ (t : HierarchyNode) (id : String) (path : List ℕ),
      pathTo t id = some path → id ∈ allIds t := by
  intro t
  induction t using HierarchyNode.inductionOn with
  | step i nm v cs0 s cv d ih =>
    intro id path h
    by_cases hid : (HierarchyNode.mk i nm v cs0 s cv d).id = id
    · rw [← hid]; exact self_id_mem_allIds _
    · cases cs0 with
      | none =>
        rw [pathTo.eq_2, if_neg hid] at h
        exact absurd h (by simp)
      | some cs =>
        rw [pathTo.eq_1, if_neg hid] at h
        rcases pathToList_spec cs id 0 path h with ⟨j, rest, c, _, hidx, hp, _⟩
        exact mem_allIds_of_child (List.getElem?_mem hidx)
          (ih c (by simpa using List.getElem?_mem hidx) id rest hp) i nm v s cv d

theorem pathToList_none :
    ∀ (cs : List HierarchyNode) (id : String) (k : ℕ),
      pathToList cs id k = none → ∀ c ∈ cs, pathTo c id = none := by
  intro cs
  induction cs with
  | nil => intro id k _ c hc; simp at hc
  | cons c rest ih =>
    intro id k h x hx
    rw [pathToList] at h
    cases hc : pathTo c id with
    | some p => rw [hc] at h; exact absurd h (by simp)
    | none =>
      rw [hc] at h
      rcases List.mem_cons.1 hx with rfl | hx2
      · exact hc
      · exact ih id (k + 1) h x hx2

theorem pathTo_none_not_mem :
    ∀ (t : HierarchyNode) (id : String), pathTo t id = none → id ∉ allIds t := by
  intro t
  induction t using HierarchyNode.inductionOn with
  | step i nm v cs0 s cv d ih =>
    intro id h
    by_cases hid : (HierarchyNode.mk i nm v cs0 s cv d).id = id
    · cases cs0 with
      | none => rw [pathTo.eq_2, if_pos hid] at h; exact absurd h (by simp)
      | some cs => rw [pathTo.eq_1, if_pos hid] at h; exact absurd h (by simp)
    · cases cs0 with
      | none =>
        rw [allIds_mk]
        intro hmem
        simp only [Option.getD_none, allNodesList, List.map_nil, List.mem_singleton] at hmem
        exact hid (by simp [HierarchyNode.id, hmem])
      | some cs =>
        rw [pathTo.eq_1, if_neg hid] at h
        intro hmem
        rcases mem_allIds_mk_iff.1 hmem with hh | ⟨c, hc, hxc⟩
        · exact hid (by simp [HierarchyNode.id, hh])
        · exact ih c (by simpa using hc) id (pathToList_none cs id 0 h c hc) hxc

theorem childrenList_mk_some (i nm : String) (v : Option ℚ) (cs : List HierarchyNode)
    (s : Status) (cv : ℚ) (d : ℕ) :
    (HierarchyNode.mk i nm v (some cs) s cv d).childrenList = cs := rfl

theorem childrenList_withCV (n : HierarchyNode) (x : ℚ) :
    (n.withCalculatedValue x).childrenList = n.childrenList := by
  cases n; rfl

theorem childrenList_withStatus (n : HierarchyNode) (s : Status) :
    (n.withStatus s).childrenList = n.childrenList := by
  cases n; rfl

theorem subtreeAt_cons (idx : ℕ) (p : List ℕ) (t : HierarchyNode) :
    subtreeAt (idx :: p) t = (t.childrenList[idx]?).bind (subtreeAt p) := rfl

theorem updateFun_target (t : HierarchyNode) (id : String) (st : Status) (h : t.id = id) :
    updateFun t id st =
      ((t.withStatus st).withCalculatedValue (resolveNodeValue (t.withStatus st)), true) := by
  cases t with
  | mk i nm v cs0 s cv d =>
    cases cs0 with
    | none => rw [updateFun.eq_2, if_pos h]
    | some cs => rw [updateFun.eq_1, if_pos h]

theorem updateFun_mk_notTarget (i nm : String) (v : Option ℚ) (cs : List HierarchyNode)
    (s : Status) (cv : ℚ) (d : ℕ) (id : String) (st : Status)
    (h : ¬ (HierarchyNode.mk i nm v (some cs) s cv d).id = id) :
    updateFun (HierarchyNode.mk i nm v (some cs) s cv d) id st =
      if (updateChildrenFun cs id st).2 then
        ((HierarchyNode.mk i nm v (some (updateChildrenFun cs id st).1) s cv d).withCalculatedValue
          (resolveNodeValue
            (HierarchyNode.mk i nm v (some (updateChildrenFun cs id st).1) s cv d)), true)
      else (HierarchyNode.mk i nm v (some cs) s cv d, false) := by
  rw [updateFun.eq_1, if_neg h]

theorem bulkFun_target (t : HierarchyNode) (id : String) (op : Status) (h : t.id = id) :
    bulkFun t id op = (subtreeFun t op, true) := by
  cases t with
  | mk i nm v cs0 s cv d =>
    cases cs0 with
    | none => rw [bulkFun.eq_2, if_pos h]
    | some cs => rw [bulkFun.eq_1, if_pos h]

theorem bulkFun_mk_notTarget (i nm : String) (v : Option ℚ) (cs : List HierarchyNode)
    (s : Status) (cv : ℚ) (d : ℕ) (id : String) (op : Status)
    (h : ¬ (HierarchyNode.mk i nm v (some cs) s cv d).id = id) :
    bulkFun (HierarchyNode.mk i nm v (some cs) s cv d) id op =
      if (bulkChildrenFun cs id op).2 then
        ((HierarchyNode.mk i nm v (some (bulkChildrenFun cs id op).1) s cv d).withCalculatedValue
          (resolveNodeValue
            (HierarchyNode.mk i nm v (some (bulkChildrenFun cs id op).1) s cv d)), true)
      else (HierarchyNode.mk i nm v (some cs) s cv d, false) := by
  rw [bulkFun.eq_1, if_neg h]

theorem updateFun_offPath :
    ∀ (t : HierarchyNode) (id : String) (st : Status) (path p : List ℕ),
      (allIds t).Nodup → pathTo t id = some path → ¬ (p <+: path) →
      subtreeAt p (updateFun t id st).1 = subtreeAt p t := by
  intro t
  induction t using HierarchyNode.inductionOn with
  | step i nm v cs0 s cv d ih =>
    intro id st path p hnodup hpath hnp
    by_cases hid : (HierarchyNode.mk i nm v cs0 s cv d).id = id
    · have hpath0 : path = [] := by
        cases cs0 with
        | none =>
          rw [pathTo.eq_2, if_pos hid] at hpath
          exact (Option.some_inj.1 hpath).symm
        | some cs =>
          rw [pathTo.eq_1, if_pos hid] at hpath
          exact (Option.some_inj.1 hpath).symm
      subst hpath0
      cases p with
      | nil => exact absurd (List.prefix_refl []) hnp
      | cons idx p2 =>
        rw [updateFun_target _ _ _ hid]
        rw [subtreeAt_cons, subtreeAt_cons, childrenList_withCV, childrenList_withStatus]
    · cases cs0 with
      | none =>
        rw [pathTo.eq_2, if_neg hid] at hpath
        exact absurd hpath (by simp)
      | some cs =>
        rw [pathTo.eq_1, if_neg hid] at hpath
        rcases pathToList_spec cs id 0 path hpath with ⟨j, rest, cj, hq, hidx, hpj, _⟩
        rw [Nat.zero_add] at hq
        subst hq
        have hmemj : id ∈ allIds cj := pathTo_some_mem cj id rest hpj
        have hchj : (updateFun cj id st).2 = true := updateFun_changed id st cj hmemj
        have hany : (updateChildrenFun cs id st).2 = true := by
          rw [(updateChildrenFun_components id st cs).2]
          exact List.any_eq_true.2 ⟨cj, List.getElem?_mem hidx, hchj⟩
        rw [updateFun_mk_notTarget i nm v cs s cv d id st hid, if_pos hany]
        cases p with
        | nil => exact absurd (List.nil_prefix) hnp
        | cons idx p2 =>
          rw [subtreeAt_cons, subtreeAt_cons, childrenList_withCV, childrenList_mk_some,
            childrenList_mk_some, (updateChildrenFun_components id st cs).1,
            List.getElem?_map]
          cases hcs : cs[idx]? with
          | none => rfl
          | some cidx =>
            simp only [Option.map_some', Option.some_bind]
            by_cases hij : idx = j
            · subst hij
              have hceq : cidx = cj := by
                rw [hcs] at hidx
                exact Option.some_inj.1 hidx
              subst hceq
              have hnp2 : ¬ p2 <+: rest := fun hp2 =>
                hnp (List.cons_prefix_cons.2 ⟨rfl, hp2⟩)
              exact ih cidx (by simpa using List.getElem?_mem hcs) id st rest p2
                (nodup_allIds_children hnodup cidx (List.getElem?_mem hcs)) hpj hnp2
            · have hnot : id ∉ allIds cidx :=
                nodup_children_disjoint hnodup j idx cj cidx (fun he => hij he.symm)
                  hidx hcs id hmemj
              rw [updateFun_not_found id st cidx hnot]

theorem bulkFun_offPath :
    ∀ (t : HierarchyNode) (id : String) (op : Status) (path p : List ℕ),
      (allIds t).Nodup → pathTo t id = some path → ¬ (p <+: path) → ¬ (path <+: p) →
      subtreeAt p (bulkFun t id op).1 = subtreeAt p t := by
  intro t
  induction t using HierarchyNode.inductionOn with
  | step i nm v cs0 s cv d ih =>
    intro id op path p hnodup hpath hnp hnp2
    by_cases hid : (HierarchyNode.mk i nm v cs0 s cv d).id = id
    · have hpath0 : path = [] := by
        cases cs0 with
        | none =>
          rw [pathTo.eq_2, if_pos hid] at hpath
          exact (Option.some_inj.1 hpath).symm
        | some cs =>
          rw [pathTo.eq_1, if_pos hid] at hpath
          exact (Option.some_inj.1 hpath).symm
      subst hpath0
      exact absurd (List.nil_prefix) hnp2
    · cases cs0 with
      | none =>
        rw [pathTo.eq_2, if_neg hid] at hpath
        exact absurd hpath (by simp)
      | some cs =>
        rw [pathTo.eq_1, if_neg hid] at hpath
        rcases pathToList_spec cs id 0 path hpath with ⟨j, rest, cj, hq, hidx, hpj, _⟩
        rw [Nat.zero_add] at hq
        subst hq
        have hmemj : id ∈ allIds cj := pathTo_some_mem cj id rest hpj
        have hchj : (bulkFun cj id op).2 = true := bulkFun_changed id op cj hmemj
        have hany : (bulkChildrenFun cs id op).2 = true := by
          rw [(bulkChildrenFun_components id op cs).2]
          exact List.any_eq_true.2 ⟨cj, List.getElem?_mem hidx, hchj⟩
        rw [bulkFun_mk_notTarget i nm v cs s cv d id op hid, if_pos hany]
        cases p with
        | nil => exact absurd (List.nil_prefix) hnp
        | cons idx p2 =>
          rw [subtreeAt_cons, subtreeAt_cons, childrenList_withCV, childrenList_mk_some,
            childrenList_mk_some, (bulkChildrenFun_components id op cs).1,
            List.getElem?_map]
          cases hcs : cs[idx]? with
          | none => rfl
          | some cidx =>
            simp only [Option.map_some', Option.some_bind]
            by_cases hij : idx = j
            · subst hij
              have hceq : cidx = cj := by
                rw [hcs] at hidx
                exact Option.some_inj.1 hidx
              subst hceq
              have hq1 : ¬ p2 <+: rest := fun hp =>
                hnp (List.cons_prefix_cons.2 ⟨rfl, hp⟩)
              have hq2 : ¬ rest <+: p2 := fun hp =>
                hnp2 (List.cons_prefix_cons.2 ⟨rfl, hp⟩)
              exact ih cidx (by simpa using List.getElem?_mem hcs) id op rest p2
                (nodup_allIds_children hnodup cidx (List.getElem?_mem hcs)) hpj hq1 hq2
            · have hnot : id ∉ allIds cidx :=
                nodup_children_disjoint hnodup j idx cj cidx (fun he => hij he.symm)
                  hidx hcs id hmemj
              rw [bulkFun_not_found id op cidx hnot]

/-- Claim C2: for a resolved tree with globally unique ids and a present
target id, every node of setStatus at a position that is not on the
root-to-target path (positions on the path are exactly the prefixes of the
target's index path) is field-for-field identical to its counterpart in the
input; for applyBulkOperation the same holds for every position neither on
the path nor inside the target's subtree.  Structural equality of subtrees
renders JavaScript reference identity, which a shallow embedding cannot
observe directly; the embedding additionally tracks the source's
reference-change Booleans, which drive exactly these reuses. -/
theorem edit_locality (cache : Cache) (t : HierarchyNode) (id : String) (st op : Status)
    (path p : List ℕ) (hnodup : (allIds t).Nodup) (hpath : pathTo t id = some path) :
    (¬ p <+: path → subtreeAt p (updateNodeStatus cache t id st).1 = subtreeAt p t) ∧
    (¬ p <+: path → ¬ path <+: p →
      subtreeAt p (applyBulkOperation cache t id op).1 = subtreeAt p t) := by
  constructor
  · intro h
    rw [updateNodeStatus_bridge]
    exact updateFun_offPath t id st path p hnodup hpath h
  · intro h1 h2
    rw [applyBulkOperation_bridge]
    exact bulkFun_offPath t id op path p hnodup hpath h1 h2

/-- Witness for C2 at a concrete input: on the sample hierarchy the target
aug sits at path [0, 1]; position [1] (the Q4 branch) is off that path and
untouched by both operations. -/
theorem edit_locality_witness :
    (allIds sampleHierarchy).Nodup ∧ pathTo sampleHierarchy "aug" = some [0, 1] ∧
    ((¬ [1] <+: [0, 1] →
        subtreeAt [1] (updateNodeStatus disabledCache sampleHierarchy "aug" .skip).1 =
          subtreeAt [1] sampleHierarchy) ∧
     (¬ [1] <+: [0, 1] → ¬ [0, 1] <+: [1] →
        subtreeAt [1] (applyBulkOperation disabledCache sampleHierarchy "aug" .skip).1 =
          subtreeAt [1] sampleHierarchy)) :=
  ⟨by decide, by decide,
   edit_locality disabledCache sampleHierarchy "aug" .skip .skip [0, 1] [1]
     (by decide) (by decide)⟩

theorem resolveNodeValue_skip (n : HierarchyNode) (h : n.status = .skip) :
    resolveNodeValue n = 0 := by
  unfold resolveNodeValue
  by_cases hl : isLeafNode n
  · rw [if_pos hl]
    unfold calculateLeafValue
    rw [h]
  · rw [if_neg hl]
    unfold calculateParentValue
    rw [h]

theorem subtreeChildrenFun_eq_map (op : Status) :
    ∀ cs : List HierarchyNode, subtreeChildrenFun cs op = cs.map (fun c => subtreeFun c op) := by
  intro cs
  induction cs with
  | nil => rfl
  | cons c rest ih => simp only [subtreeChildrenFun, ih, List.map_cons]

theorem status_mk (i nm : String) (v : Option ℚ) (cs0 : Option (List HierarchyNode))
    (s : Status) (cv : ℚ) (d : ℕ) : (HierarchyNode.mk i nm v cs0 s cv d).status = s := rfl

theorem subtreeFun_skip_allZero :
    ∀ t : HierarchyNode, ∀ n ∈ allNodes (subtreeFun t .skip),
      n.status = .skip ∧ n.calculatedValue = 0 := by
  intro t
  induction t using HierarchyNode.inductionOn with
  | step i nm v cs0 s cv d ih =>
    intro n hn
    cases cs0 with
    | none =>
      rw [subtreeFun.eq_2] at hn
      rw [show (HierarchyNode.mk i nm v none Status.skip cv d).withCalculatedValue
            (resolveNodeValue (HierarchyNode.mk i nm v none Status.skip cv d)) =
          HierarchyNode.mk i nm v none Status.skip
            (resolveNodeValue (HierarchyNode.mk i nm v none Status.skip cv d)) d from rfl,
        allNodes_mk] at hn
      simp only [Option.getD_none, allNodesList, List.mem_singleton] at hn
      subst hn
      refine ⟨rfl, ?_⟩
      rw [show (HierarchyNode.mk i nm v none Status.skip
            (resolveNodeValue (HierarchyNode.mk i nm v none Status.skip cv d))
            d).calculatedValue =
          resolveNodeValue (HierarchyNode.mk i nm v none Status.skip cv d) from rfl]
      exact resolveNodeValue_skip _ rfl
    | some cs =>
      rw [subtreeFun.eq_1] at hn
      rw [show (HierarchyNode.mk i nm v (some (subtreeChildrenFun cs Status.skip)) Status.skip cv
            d).withCalculatedValue
            (resolveNodeValue
              (HierarchyNode.mk i nm v (some (subtreeChildrenFun cs Status.skip)) Status.skip cv
                d)) =
          HierarchyNode.mk i nm v (some (subtreeChildrenFun cs Status.skip)) Status.skip
            (resolveNodeValue
              (HierarchyNode.mk i nm v (some (subtreeChildrenFun cs Status.skip)) Status.skip cv
                d)) d from rfl, allNodes_mk] at hn
      simp only [Option.getD_some, List.mem_cons] at hn
      rcases hn with rfl | hn2
      · refine ⟨rfl, ?_⟩
        rw [show (HierarchyNode.mk i nm v (some (subtreeChildrenFun cs Status.skip)) Status.skip
              (resolveNodeValue
                (HierarchyNode.mk i nm v (some (subtreeChildrenFun cs Status.skip)) Status.skip cv
                  d)) d).calculatedValue =
            resolveNodeValue
              (HierarchyNode.mk i nm v (some (subtreeChildrenFun cs Status.skip)) Status.skip cv
                d) from rfl]
        exact resolveNodeValue_skip _ rfl
      · rcases mem_allNodesList.1 hn2 with ⟨c2, hc2, hnc2⟩
        rw [subtreeChildrenFun_eq_map] at hc2
        rcases List.mem_map.1 hc2 with ⟨c, hc, rfl⟩
        exact ih c (by simpa using hc) n hnc2

theorem bulkFun_on_path :
    ∀ (t : HierarchyNode) (id : String) (path : List ℕ), (allIds t).Nodup →
      pathTo t id = some path →
      (∃ tgt, subtreeAt path t = some tgt ∧
        subtreeAt path (bulkFun t id .skip).1 = some (subtreeFun tgt .skip)) ∧
      (∀ q, q <+: path → q ≠ path →
        ∃ a, subtreeAt q (bulkFun t id .skip).1 = some a ∧
          a.calculatedValue = calculateParentValue a) := by
  intro t
  induction t using HierarchyNode.inductionOn with
  | step i nm v cs0 s cv d ih =>
    intro id path hnodup hpath
    by_cases hid : (HierarchyNode.mk i nm v cs0 s cv d).id = id
    · have hpath0 : path = [] := by
        cases cs0 with
        | none =>
          rw [pathTo.eq_2, if_pos hid] at hpath
          exact (Option.some_inj.1 hpath).symm
        | some cs =>
          rw [pathTo.eq_1, if_pos hid] at hpath
          exact (Option.some_inj.1 hpath).symm
      subst hpath0
      constructor
      · exact ⟨HierarchyNode.mk i nm v cs0 s cv d, rfl, by rw [bulkFun_target _ _ _ hid]; rfl⟩
      · intro q hq hqne
        exact absurd (List.prefix_nil.1 hq) hqne
    · cases cs0 with
      | none =>
        rw [pathTo.eq_2, if_neg hid] at hpath
        exact absurd hpath (by simp)
      | some cs =>
        rw [pathTo.eq_1, if_neg hid] at hpath
        rcases pathToList_spec cs id 0 path hpath with ⟨j, rest, cj, hq, hidx, hpj, _⟩
        rw [Nat.zero_add] at hq
        subst hq
        have hmemj : id ∈ allIds cj := pathTo_some_mem cj id rest hpj
        have hchj : (bulkFun cj id .skip).2 = true := bulkFun_changed id .skip cj hmemj
        have hany : (bulkChildrenFun cs id .skip).2 = true := by
          rw [(bulkChildrenFun_components id .skip cs).2]
          exact List.any_eq_true.2 ⟨cj, List.getElem?_mem hidx, hchj⟩
        have hihj := ih cj (by simpa using List.getElem?_mem hidx) id rest
          (nodup_allIds_children hnodup cj (List.getElem?_mem hidx)) hpj
        rw [bulkFun_mk_notTarget i nm v cs s cv d id .skip hid, if_pos hany]
        have hsub : ∀ p2 : List ℕ,
            subtreeAt (j :: p2)
              ((HierarchyNode.mk i nm v (some (bulkChildrenFun cs id .skip).1) s cv
                d).withCalculatedValue
                (resolveNodeValue
                  (HierarchyNode.mk i nm v (some (bulkChildrenFun cs id .skip).1) s cv d))) =
            subtreeAt p2 (bulkFun cj id .skip).1 := by
          intro p2
          rw [subtreeAt_cons, childrenList_withCV, childrenList_mk_some,
            (bulkChildrenFun_components id .skip cs).1, List.getElem?_map, hidx]
          rfl
        constructor
        · rcases hihj.1 with ⟨tgt, htgt1, htgt2⟩
          refine ⟨tgt, ?_, ?_⟩
          · rw [subtreeAt_cons, childrenList_mk_some, hidx]
            exact htgt1
          · rw [hsub rest]
            exact htgt2
        · intro q hqpre hqne
          cases q with
          | nil =>
            refine ⟨_, rfl, ?_⟩
            have hcsne : ∃ c0 cs2, cs = c0 :: cs2 := by
              cases hcs0 : cs with
              | nil =>
                rw [hcs0] at hidx
                simp at hidx
              | cons c0 cs2 => exact ⟨c0, cs2, rfl⟩
            rcases hcsne with ⟨c0, cs2, rfl⟩
            have hne : isLeafNode
                (HierarchyNode.mk i nm v (some (bulkChildrenFun (c0 :: cs2) id .skip).1) s cv d)
                = false := by
              rw [(bulkChildrenFun_components id .skip (c0 :: cs2)).1]
              rfl
            rw [calculatedValue_withCV, calculateParentValue_withCV]
            unfold resolveNodeValue
            rw [hne]
            simp
          | cons q0 q2 =>
            rcases List.cons_prefix_cons.1 hqpre with ⟨rfl, hq2pre⟩
            have hq2ne : q2 ≠ rest := fun he => hqne (by rw [he])
            rw [hsub q2]
            exact hihj.2 q2 hq2pre hq2ne

/-- Claim C4: for a tree with unique ids and a present target id, after
applyBulkOperation with skip every node in the subtree rooted at the target
(target included) has status skip and calculatedValue 0, and every strict
ancestor of the target (every proper prefix of the target's index path)
carries a calculatedValue equal to the signed sum, per its own status, of
its children's updated aggregates. -/
theorem bulk_skip_propagation (cache : Cache) (t : HierarchyNode) (id : String)
    (path : List ℕ) (hnodup : (allIds t).Nodup) (hpath : pathTo t id = some path) :
    (∃ sub, subtreeAt path (applyBulkOperation cache t id .skip).1 = some sub ∧
      ∀ n ∈ allNodes sub, n.status = .skip ∧ n.calculatedValue = 0) ∧
    (∀ q, q <+: path → q ≠ path →
      ∃ a, subtreeAt q (applyBulkOperation cache t id .skip).1 = some a ∧
        a.calculatedValue = calculateParentValue a) := by
  rw [applyBulkOperation_bridge]
  rcases bulkFun_on_path t id path hnodup hpath with ⟨⟨tgt, _, htgt⟩, hanc⟩
  exact ⟨⟨subtreeFun tgt .skip, htgt, subtreeFun_skip_allZero tgt⟩, hanc⟩

/-- Witness for C4 at a concrete input: bulk-skipping q3 (path [0]) in the
sample hierarchy zeroes the whole Q3 subtree and recomputes the root sum. -/
theorem bulk_skip_propagation_witness :
    (allIds sampleHierarchy).Nodup ∧ pathTo sampleHierarchy "q3" = some [0] ∧
    ((∃ sub,
        subtreeAt [0] (applyBulkOperation disabledCache sampleHierarchy "q3" .skip).1 =
          some sub ∧ ∀ n ∈ allNodes sub, n.status = .skip ∧ n.calculatedValue = 0) ∧
     (∀ q, q <+: [0] → q ≠ [0] →
        ∃ a, subtreeAt q (applyBulkOperation disabledCache sampleHierarchy "q3" .skip).1 =
          some a ∧ a.calculatedValue = calculateParentValue a)) :=
  ⟨by decide, by decide,
   bulk_skip_propagation disabledCache sampleHierarchy "q3" [0] (by decide) (by decide)⟩

theorem mem_allNodes_self (t : HierarchyNode) : t ∈ allNodes t := by
  cases t with
  | mk i nm v cs0 s cv d =>
    rw [allNodes_mk]
    exact List.mem_cons_self _ _

theorem mem_allNodes_of_child {n c : HierarchyNode} {cs : List HierarchyNode}
    (hc : c ∈ cs) (hn : n ∈ allNodes c) (i nm : String) (v : Option ℚ) (s : Status)
    (cv : ℚ) (d : ℕ) : n ∈ allNodes (HierarchyNode.mk i nm v (some cs) s cv d) := by
  rw [allNodes_mk]
  exact List.mem_cons_of_mem _ (mem_allNodesList.2 ⟨c, hc, hn⟩)

theorem nodeLocalInvariant_iff {n : HierarchyNode} :
    nodeLocalInvariant n = true ↔ n.calculatedValue = resolveNodeValue n := by
  unfold nodeLocalInvariant resolveNodeValue
  by_cases hl : isLeafNode n
  · rw [if_pos hl, if_pos hl, beq_iff_eq]
  · rw [if_neg hl, if_neg hl, beq_iff_eq]

theorem resolvedTree_nodeLocal {t : HierarchyNode} (h : resolvedTree t = true) :
    nodeLocalInvariant t = true := by
  unfold resolvedTree at h
  exact List.all_eq_true.1 h t (mem_allNodes_self t)

theorem resolvedTree_children {i nm : String} {v : Option ℚ} {cs : List HierarchyNode}
    {s : Status} {cv : ℚ} {d : ℕ}
    (h : resolvedTree (HierarchyNode.mk i nm v (some cs) s cv d) = true) :
    ∀ c ∈ cs, resolvedTree c = true := by
  rw [resolvedTree_mk_some, Bool.and_eq_true] at h
  exact fun c hc => List.all_eq_true.1 h.2 c hc

theorem resolveNodeValue_cv_irrel (i nm : String) (v : Option ℚ)
    (cs0 : Option (List HierarchyNode)) (s : Status) (x y : ℚ) (d : ℕ) :
    resolveNodeValue (HierarchyNode.mk i nm v cs0 s x d) =
      resolveNodeValue (HierarchyNode.mk i nm v cs0 s y d) := rfl

theorem updateFun_changed_mem {t : HierarchyNode} {id : String} {st : Status}
    (h : (updateFun t id st).2 = true) : id ∈ allIds t := by
  by_contra hn
  rw [updateFun_not_found id st t hn] at h
  exact Bool.false_ne_true h

theorem updateChildrenFun_idsList (id : String) (st : Status) :
    ∀ cs : List HierarchyNode,
      (∀ c ∈ cs, allIds (updateFun c id st).1 = allIds c) →
      (allNodesList (updateChildrenFun cs id st).1).map HierarchyNode.id =
        (allNodesList cs).map HierarchyNode.id := by
  intro cs
  induction cs with
  | nil => intro _; rfl
  | cons c rest ih =>
    intro H
    rw [(updateChildrenFun_components id st (c :: rest)).1, List.map_cons]
    rw [show allNodesList ((updateFun c id st).1 ::
        List.map (fun x => (updateFun x id st).1) rest) =
      allNodes (updateFun c id st).1 ++
        allNodesList (List.map (fun x => (updateFun x id st).1) rest) from rfl]
    rw [idsList_cons, List.map_append]
    have h1 : (allNodes (updateFun c id st).1).map HierarchyNode.id = allIds c :=
      H c (by simp)
    have h2 := ih (fun x hx => H x (by simp [hx]))
    rw [(updateChildrenFun_components id st rest).1] at h2
    rw [h1, h2]

theorem updateFun_allIds (id : String) (st : Status) :
    ∀ t : HierarchyNode, allIds (updateFun t id st).1 = allIds t := by
  intro t
  induction t using HierarchyNode.inductionOn with
  | step i nm v cs0 s cv d ih =>
    by_cases hid : (HierarchyNode.mk i nm v cs0 s cv d).id = id
    · rw [updateFun_target _ _ _ hid]
      cases cs0 <;> rfl
    · cases cs0 with
      | none => rw [updateFun.eq_2, if_neg hid]
      | some cs =>
        rw [updateFun_mk_notTarget i nm v cs s cv d id st hid]
        by_cases hch : (updateChildrenFun cs id st).2 = true
        · rw [if_pos hch]
          have hlist := updateChildrenFun_idsList id st cs
            (fun c hc => ih c (by simpa using hc))
          rw [show ((HierarchyNode.mk i nm v (some (updateChildrenFun cs id st).1) s cv
              d).withCalculatedValue
              (resolveNodeValue
                (HierarchyNode.mk i nm v (some (updateChildrenFun cs id st).1) s cv d)),
              true).1 =
            HierarchyNode.mk i nm v (some (updateChildrenFun cs id st).1) s
              (resolveNodeValue
                (HierarchyNode.mk i nm v (some (updateChildrenFun cs id st).1) s cv d)) d
            from rfl]
          rw [allIds_mk, allIds_mk]
          simp only [Option.getD_some]
          rw [hlist]
        · rw [if_neg hch]

theorem updateFun_toggle_restore :
    ∀ (t : HierarchyNode) (id : String), resolvedTree t = true → (allIds t).Nodup →
      (∀ n ∈ allNodes t, n.id = id → n.status = .normal) →
      (updateFun (updateFun t id .skip).1 id .normal).1 = t := by
  intro t
  induction t using HierarchyNode.inductionOn with
  | step i nm v cs0 s cv d ih =>
    intro id hres hnodup hstatus
    by_cases hid : (HierarchyNode.mk i nm v cs0 s cv d).id = id
    · have hs : s = .normal := hstatus _ (mem_allNodes_self _) hid
      subst hs
      rw [updateFun_target _ _ _ hid]
      show (updateFun (HierarchyNode.mk i nm v cs0 Status.skip
          (resolveNodeValue (HierarchyNode.mk i nm v cs0 Status.skip cv d)) d) id
          Status.normal).1 = HierarchyNode.mk i nm v cs0 Status.normal cv d
      have hid2 : (HierarchyNode.mk i nm v cs0 Status.skip
          (resolveNodeValue (HierarchyNode.mk i nm v cs0 Status.skip cv d)) d).id = id := hid
      rw [updateFun_target _ _ _ hid2]
      show HierarchyNode.mk i nm v cs0 Status.normal
          (resolveNodeValue (HierarchyNode.mk i nm v cs0 Status.normal
            (resolveNodeValue (HierarchyNode.mk i nm v cs0 Status.skip cv d)) d)) d =
        HierarchyNode.mk i nm v cs0 Status.normal cv d
      rw [resolveNodeValue_cv_irrel i nm v cs0 Status.normal
        (resolveNodeValue (HierarchyNode.mk i nm v cs0 Status.skip cv d)) cv d]
      have hcv : resolveNodeValue (HierarchyNode.mk i nm v cs0 Status.normal cv d) = cv :=
        (nodeLocalInvariant_iff.1 (resolvedTree_nodeLocal hres)).symm
      rw [hcv]
    · cases cs0 with
      | none =>
        rw [updateFun.eq_2, if_neg hid]
        show (updateFun (HierarchyNode.mk i nm v none s cv d) id Status.normal).1 =
          HierarchyNode.mk i nm v none s cv d
        rw [updateFun.eq_2, if_neg hid]
      | some cs =>
        rw [updateFun_mk_notTarget i nm v cs s cv d id .skip hid]
        by_cases hch : (updateChildrenFun cs id .skip).2 = true
        · rw [if_pos hch]
          show (updateFun (HierarchyNode.mk i nm v (some (updateChildrenFun cs id .skip).1) s
              (resolveNodeValue
                (HierarchyNode.mk i nm v (some (updateChildrenFun cs id .skip).1) s cv d)) d)
              id Status.normal).1 = HierarchyNode.mk i nm v (some cs) s cv d
          have hid2 : ¬ (HierarchyNode.mk i nm v (some (updateChildrenFun cs id .skip).1) s
              (resolveNodeValue
                (HierarchyNode.mk i nm v (some (updateChildrenFun cs id .skip).1) s cv d))
              d).id = id := hid
          rw [updateFun_mk_notTarget i nm v (updateChildrenFun cs id .skip).1 s
            (resolveNodeValue
              (HierarchyNode.mk i nm v (some (updateChildrenFun cs id .skip).1) s cv d)) d
            id .normal hid2]
          have hch2 : (updateChildrenFun (updateChildrenFun cs id .skip).1 id .normal).2
              = true := by
            rw [(updateChildrenFun_components id .skip cs).2] at hch
            rcases List.any_eq_true.1 hch with ⟨c, hc, hcch⟩
            have hmemc : id ∈ allIds c := updateFun_changed_mem hcch
            have hmemc2 : id ∈ allIds (updateFun c id .skip).1 := by
              rw [updateFun_allIds id .skip c]
              exact hmemc
            rw [(updateChildrenFun_components id .normal _).2]
            refine List.any_eq_true.2 ⟨(updateFun c id .skip).1, ?_, ?_⟩
            · rw [(updateChildrenFun_components id .skip cs).1]
              exact List.mem_map.2 ⟨c, hc, rfl⟩
            · exact updateFun_changed id .normal _ hmemc2
          rw [if_pos hch2]
          have hr2 : (updateChildrenFun (updateChildrenFun cs id .skip).1 id .normal).1
              = cs := by
            rw [(updateChildrenFun_components id .normal _).1,
              (updateChildrenFun_components id .skip cs).1, List.map_map]
            have hcongr : ∀ c ∈ cs,
                ((fun x => (updateFun x id Status.normal).1) ∘
                  (fun c2 => (updateFun c2 id Status.skip).1)) c = c := by
              intro c hc
              show (updateFun (updateFun c id .skip).1 id .normal).1 = c
              exact ih c (by simpa using hc) id (resolvedTree_children hres c hc)
                (nodup_allIds_children hnodup c hc)
                (fun n hn hnid => hstatus n (mem_allNodes_of_child hc hn i nm v s cv d) hnid)
            calc cs.map ((fun x => (updateFun x id Status.normal).1) ∘
                  (fun c2 => (updateFun c2 id Status.skip).1))
                = cs.map (fun c => c) := List.map_congr_left hcongr
              _ = cs := List.map_id' cs
          rw [hr2]
          show HierarchyNode.mk i nm v (some cs) s
              (resolveNodeValue (HierarchyNode.mk i nm v (some cs) s
                (resolveNodeValue (HierarchyNode.mk i nm v
                  (some (updateChildrenFun cs id .skip).1) s cv d)) d)) d =
            HierarchyNode.mk i nm v (some cs) s cv d
          rw [resolveNodeValue_cv_irrel i nm v (some cs) s
            (resolveNodeValue (HierarchyNode.mk i nm v
              (some (updateChildrenFun cs id .skip).1) s cv d)) cv d]
          have hcv : resolveNodeValue (HierarchyNode.mk i nm v (some cs) s cv d) = cv :=
            (nodeLocalInvariant_iff.1 (resolvedTree_nodeLocal hres)).symm
          rw [hcv]
        · rw [if_neg hch]
          show (updateFun (HierarchyNode.mk i nm v (some cs) s cv d) id Status.normal).1 =
            HierarchyNode.mk i nm v (some cs) s cv d
          have hnoid : ∀ c ∈ cs, id ∉ allIds c := by
            intro c hc hmemc
            exact hch (by
              rw [(updateChildrenFun_components id .skip cs).2]
              exact List.any_eq_true.2 ⟨c, hc, updateFun_changed id .skip c hmemc⟩)
          have hnm : id ∉ allIds (HierarchyNode.mk i nm v (some cs) s cv d) := by
            intro hmem
            rcases mem_allIds_mk_iff.1 hmem with hh | ⟨c, hc, hxc⟩
            · exact hid (by simp [HierarchyNode.id, hh])
            · exact hnoid c hc hxc
          rw [updateFun_not_found id .normal _ hnm]

/-- Counterexample to C6 as stated: on the resolved single-node tree whose
node a has status invert, value 5 and calculatedValue -5, skipping and then
normalising node a leaves calculatedValue 5, not the original -5 — the
round trip restores the value only when the target's original status was
normal. -/
theorem toggle_roundtrip_counterexample :
    resolvedTree invertedLeaf = true ∧ "a" ∈ allIds invertedLeaf ∧
    pathTo invertedLeaf "a" = some [] ∧
    ((updateNodeStatus disabledCache
        (updateNodeStatus disabledCache invertedLeaf "a" .skip).1 "a"
        .normal).1).calculatedValue ≠ invertedLeaf.calculatedValue := by
  with_unfolding_all decide

/-- Claim C6 (amended): for a resolved tree with unique ids whose target
node currently has status normal, setStatus to skip followed by setStatus
back to normal restores the original calculatedValue of the target and of
every node on the root-to-target path (its ancestors), whatever the cache
states. -/
theorem toggle_roundtrip (cache1 cache2 : Cache) (t : HierarchyNode) (id : String)
    (path : List ℕ) (hres : resolvedTree t = true) (hnodup : (allIds t).Nodup)
    (hstatus : ∀ n ∈ allNodes t, n.id = id → n.status = .normal)
    (_hpath : pathTo t id = some path) :
    ∀ q, q <+: path →
      (subtreeAt q (updateNodeStatus cache2
          (updateNodeStatus cache1 t id .skip).1 id .normal).1).map
        HierarchyNode.calculatedValue =
      (subtreeAt q t).map HierarchyNode.calculatedValue := by
  intro q _
  rw [updateNodeStatus_bridge, updateNodeStatus_bridge,
    updateFun_toggle_restore t id hres hnodup hstatus]

/-- Witness for C6 (amended) at a concrete input: toggling leaf x of the
witness tree to skip and back restores the calculatedValue at the root and
at the leaf itself. -/
theorem toggle_roundtrip_witness :
    resolvedTree witnessTree = true ∧ (allIds witnessTree).Nodup ∧
    (∀ n ∈ allNodes witnessTree, n.id = "x" → n.status = .normal) ∧
    pathTo witnessTree "x" = some [0] ∧
    (∀ q, q <+: [0] →
      (subtreeAt q (updateNodeStatus disabledCache
          (updateNodeStatus disabledCache witnessTree "x" .skip).1 "x"
          .normal).1).map HierarchyNode.calculatedValue =
      (subtreeAt q witnessTree).map HierarchyNode.calculatedValue) :=
  ⟨by with_unfolding_all decide, by decide, by decide, by decide,
   toggle_roundtrip disabledCache disabledCache witnessTree "x" [0]
     (by with_unfolding_all decide) (by decide) (by decide) (by decide)⟩
